import Mathlib

/-!
Verification of the grammar processor (`grammar_processor.py`).

Python strings are modelled as lists of characters (`Str`).  The mutable
`GrammarProcessor` object is modelled by the `Grammar` structure; methods that
can mutate the object (through the `defaultdict` field `productions`) take and
return a `Grammar`.  The membership query, which can raise `TypeError` when no
grammar was parsed, returns `Except Unit Bool` (`Except.error` marks the raised
exception).
-/

set_option maxRecDepth 4000

deriving instance DecidableEq for Except

/-- Python strings modelled as lists of characters. -/
abbrev Str : Type := List Char

/-- Whitespace recognised by `str.strip()` (the ASCII fragment, which covers
every input the program handles). -/
def isWs (c : Char) : Bool := c = ' ' || c = '\t' || c = '\n' || c = '\r'

/-- `s.strip()`: remove leading and trailing whitespace. -/
def trimWs (s : Str) : Str := ((s.dropWhile isWs).reverse.dropWhile isWs).reverse

/-- `s.split(sep)` for a one-character separator: split at every occurrence,
keeping empty pieces. -/
def splitChar (sep : Char) : Str → List Str
  | [] => [[]]
  | c :: cs =>
    if c = sep then [] :: splitChar sep cs
    else
      match splitChar sep cs with
      | [] => [[c]]
      | h :: t => (c :: h) :: t

/-- `line.split('->', 1)`: split at the first occurrence of `->`; `none` when
the line has no `->` (such lines are skipped by the parser). -/
def splitArrow : Str → Option (Str × Str)
  | [] => none
  | '-' :: '>' :: rest => some ([], rest)
  | c :: rest => (splitArrow rest).map (fun p => (c :: p.1, p.2))

/-- The grammar model: the fields of `GrammarProcessor`.  `productions` is the
`defaultdict(list)` as an association list in insertion order, `terminals` and
`non_terminals` are Python sets modelled as duplicate-free lists, and
`start_symbol` is `None` until the first production line is parsed. -/
structure Grammar where
  productions : List (Str × List Str)
  terminals : List Char
  non_terminals : List Str
  start_symbol : Option Str
deriving DecidableEq

/-- The state built by `GrammarProcessor.__init__`. -/
def initProcessor : Grammar := ⟨[], [], [], none⟩

/-- `set.add` on a set of strings modelled as a duplicate-free list. -/
def insertSet (x : Str) (s : List Str) : List Str := if x ∈ s then s else s ++ [x]

/-- `set.add` on the terminal set (whose elements are single characters). -/
def insertSetC (c : Char) (s : List Char) : List Char := if c ∈ s then s else s ++ [c]

/-- `self.productions[left].append(prod)` on the association list: append to the
entry of `left`, creating it if missing. -/
def addProduction (ps : List (Str × List Str)) (left : Str) (rhs : Str) :
    List (Str × List Str) :=
  match ps with
  | [] => [(left, [rhs])]
  | (k, v) :: rest =>
    if k = left then (k, v ++ [rhs]) :: rest
    else (k, v) :: addProduction rest left rhs

/-- The per-character scan of a right-hand side in `parse_grammar`: uppercase
characters join `non_terminals` (as singleton strings, as Python iteration over
a string yields one-character strings), lowercase characters join `terminals`. -/
def classifyChars (g : Grammar) (rhs : Str) : Grammar :=
  rhs.foldl
    (fun g c =>
      if c.isUpper then { g with non_terminals := insertSet [c] g.non_terminals }
      else if c.isLower then { g with terminals := insertSetC c g.terminals }
      else g)
    g

/-- One line of `parse_grammar`: lines without `->` are skipped; otherwise the
left part becomes the start symbol if none is set yet and joins
`non_terminals`, and each `|`-separated alternative is appended to the
productions of the left part and has its characters classified. -/
def parseLine (g : Grammar) (line : Str) : Grammar :=
  match splitArrow line with
  | none => g
  | some (l, r) =>
    let left := trimWs l
    let g1 :=
      match g.start_symbol with
      | none => { g with start_symbol := some left }
      | some _ => g
    let g2 := { g1 with non_terminals := insertSet left g1.non_terminals }
    let alts := (splitChar '|' r).map trimWs
    alts.foldl
      (fun g p =>
        classifyChars { g with productions := addProduction g.productions left p } p)
      g2

/-- `parse_grammar`: strip the text, split it into lines, strip each line, drop
blank lines, and process the rest in order. -/
def parse_grammar (g : Grammar) (text : Str) : Grammar :=
  let lines := ((splitChar '\n' (trimWs text)).map trimWs).filter (fun l => !l.isEmpty)
  lines.foldl parseLine g

/-- Association-list search for a production key. -/
def assocFind : List (Str × List Str) → Str → Option (List Str)
  | [], _ => none
  | (a, v) :: rest, k => if a = k then some v else assocFind rest k

/-- The value `self.productions[k]` denotes, read-only: a missing key denotes
the empty list (the `defaultdict` default). -/
def lookupD (g : Grammar) (k : Str) : List Str := (assocFind g.productions k).getD []

/-- `self.productions[k]` as executed: reading a missing key of the
`defaultdict` inserts that key with an empty list, mutating the mapping. -/
def getProds (g : Grammar) (k : Str) : List Str × Grammar :=
  match assocFind g.productions k with
  | some v => (v, g)
  | none => ([], { g with productions := g.productions ++ [(k, [])] })

/-- `_is_terminal_string`: every character of the string is in the terminal set.
The source's second disjunct `char == ''` can never hold for a character drawn
from a string, so it adds nothing. -/
def is_terminal_string (g : Grammar) (s : Str) : Bool :=
  s.all (fun c => decide (c ∈ g.terminals))

/-- The scan of `_get_expansions`: find the first character belonging to
`non_terminals` (as a one-character string), and substitute every production of
that non-terminal at its position; `pre` is the already-scanned prefix. -/
def getExpansionsAux (g : Grammar) (pre rest : Str) : List Str × Grammar :=
  match rest with
  | [] => ([], g)
  | c :: cs =>
    if [c] ∈ g.non_terminals then
      let pv := getProds g [c]
      (pv.1.map (fun p => pre ++ p ++ cs), pv.2)
    else getExpansionsAux g (pre ++ [c]) cs

/-- `_get_expansions(current)`: the one-step leftmost expansions of a sentential
form, together with the possibly-extended productions mapping. -/
def get_expansions (g : Grammar) (current : Str) : List Str × Grammar :=
  getExpansionsAux g [] current

/-- Read-only counterpart of the scan of `_get_expansions`. -/
def pureExpansionsAux (g : Grammar) (pre rest : Str) : List Str :=
  match rest with
  | [] => []
  | c :: cs =>
    if [c] ∈ g.non_terminals then (lookupD g [c]).map (fun p => pre ++ p ++ cs)
    else pureExpansionsAux g (pre ++ [c]) cs

/-- Read-only counterpart of `_get_expansions`; it returns the same list. -/
def pureExpansions (g : Grammar) (current : Str) : List Str :=
  pureExpansionsAux g [] current

/-- The enqueue step shared by the three searches: each candidate expansion is
examined in order, and one that is not yet visited and passes the guard is
appended to both the queue and the visited set. -/
def enqueueNew (guard : Str → Bool) (items : List Str) (q vis : List Str) :
    List Str × List Str :=
  items.foldl
    (fun acc e =>
      if e ∈ acc.2 then acc
      else if guard e then (acc.1 ++ [e], acc.2 ++ [e]) else acc)
    (q, vis)

/-- Python string comparison (`<`): lexicographic by character, a strict prefix
coming first. -/
def lexLt : Str → Str → Bool
  | [], [] => false
  | [], _ :: _ => true
  | _ :: _, [] => false
  | a :: as, b :: bs => decide (a < b) || (a = b && lexLt as bs)

/-- Insert into a list sorted by `lexLt`. -/
def insSorted (x : Str) : List Str → List Str
  | [] => [x]
  | y :: ys => if lexLt x y then x :: y :: ys else y :: insSorted x ys

/-- `sorted(...)` on a list of strings (insertion sort; on duplicate-free input
this is the unique strictly `lexLt`-sorted permutation, hence agrees with the
Python sort). -/
def sortStrs : List Str → List Str
  | [] => []
  | x :: xs => insSorted x (sortStrs xs)

/-- Every character the searches can ever see: the characters of the start
symbol and of every stored right-hand side. -/
def alphaList (g : Grammar) : List Char :=
  (match g.start_symbol with
   | none => []
   | some s => s) ++ ((g.productions.map Prod.snd).flatten).flatten

/-- The character alphabet of a grammar, as a finite set. -/
def alpha (g : Grammar) : Finset Char := (alphaList g).toFinset

/-- `powSum a n = 1 + a + a^2 + ... + a^n`, an upper bound on the number of
strings of length at most `n` over an alphabet of `a` characters. -/
def powSum (a : Nat) : Nat → Nat
  | 0 => 1
  | n + 1 => 1 + a * powSum a n

/-- Fuel that always outlasts the word-generation loop (one more than the
number of strings its visited set can ever hold). -/
def genFuel (g : Grammar) (L : Nat) : Nat := 1 + powSum (alpha g).card (2 * L)

/-- Fuel that always outlasts the empty-string reachability loop. -/
def emptyFuel (g : Grammar) : Nat := 1 + powSum (alpha g).card 19

/-- The loop of `generate_words`.  State: fuel, grammar, queue, visited set,
collected words.  The loop exits when the queue empties or enough words are
collected; `none` marks fuel exhaustion, which `genFuel` makes unreachable. -/
def genLoop (L N : Nat) :
    Nat → Grammar → List Str → List Str → List Str → Option (List Str × Grammar)
  | _, g, [], _, words => some (sortStrs words, g)
  | fuel, g, c :: rest, vis, words =>
    if N ≤ words.length then some (sortStrs words, g)
    else
      match fuel with
      | 0 => none
      | fuel + 1 =>
        if is_terminal_string g c then
          genLoop L N fuel g rest vis
            (if c.length ≤ L && !c.isEmpty then insertSet c words else words)
        else if L < c.length then genLoop L N fuel g rest vis words
        else
          let eg := get_expansions g c
          let qv := enqueueNew (fun e => e.length ≤ 2 * L) eg.1 rest vis
          genLoop L N fuel eg.2 qv.1 qv.2 words

/-- `generate_words(max_length, max_words)`: returns the sorted collected words
and the grammar state after the call.  A falsy start symbol (`None` or the
empty string) yields the empty list at once. -/
def generate_words (g : Grammar) (L N : Nat) : List Str × Grammar :=
  match g.start_symbol with
  | none => ([], g)
  | some s =>
    if s = [] then ([], g)
    else
      match genLoop L N (genFuel g L) g [s] [s] [] with
      | some out => out
      | none => ([], g)

/-- Trace of one run of the `_can_produce_empty` loop: the result (`none` only
on fuel exhaustion, which `emptyFuel` makes unreachable), the final grammar
state and the list of strings popped from the queue, in order. -/
structure EmptyRun where
  result : Option Bool
  g : Grammar
  popped : List Str
deriving DecidableEq

/-- The loop of `_can_produce_empty`: pop a form; the empty form means success;
a terminal form is a dead end; otherwise expand it and enqueue the unvisited
expansions of length below 20. -/
def emptyLoop : Nat → Grammar → List Str → List Str → List Str → EmptyRun
  | _, g, [], _, trace => ⟨some false, g, trace⟩
  | 0, g, _ :: _, _, trace => ⟨none, g, trace⟩
  | fuel + 1, g, c :: rest, vis, trace =>
    if c = [] then ⟨some true, g, trace ++ [c]⟩
    else if is_terminal_string g c then emptyLoop fuel g rest vis (trace ++ [c])
    else
      let eg := get_expansions g c
      let qv := enqueueNew (fun e => e.length < 20) eg.1 rest vis
      emptyLoop fuel eg.2 qv.1 qv.2 (trace ++ [c])

/-- The run of `_can_produce_empty` on a grammar whose start symbol is present. -/
def emptyRunOf (g : Grammar) (s : Str) : EmptyRun := emptyLoop (emptyFuel g) g [s] [s] []

/-- `_can_produce_empty`.  With no start symbol the source enqueues `None`; the
first iteration then calls `_is_terminal_string(None)`, which iterates over
`None` and raises `TypeError` — modelled by `Except.error ()`.  Otherwise the
bounded search runs (its fuel-exhaustion branch is unreachable, see
`emptyLoop_result_isSome`). -/
def can_produce_empty (g : Grammar) : Except Unit Bool × Grammar :=
  match g.start_symbol with
  | none => (Except.error (), g)
  | some s =>
    let run := emptyRunOf g s
    match run.result with
    | some b => (Except.ok b, run.g)
    | none => (Except.ok false, run.g)

/-- How a run of the `_bfs_parse` loop ended: target found, queue exhausted, or
iteration cap reached. -/
inductive BfsOutcome where
  | found
  | emptied
  | capped
deriving DecidableEq

/-- Trace of one run of the `_bfs_parse` loop: how it ended, the final value of
the `iterations` counter, the final grammar state and the final visited set. -/
structure BfsRun where
  outcome : BfsOutcome
  iters : Nat
  g : Grammar
  vis : List Str
deriving DecidableEq

/-- The loop of `_bfs_parse`.  The source condition is
`while queue and iterations < 10000`; the structural fuel starts at 10000 and
mirrors `10000 - iterations`, so the fuel-zero branch coincides with the
iteration cap. -/
def bfsLoop (target : Str) : Nat → Nat → Grammar → List Str → List Str → BfsRun
  | _, iters, g, [], vis => ⟨.emptied, iters, g, vis⟩
  | 0, iters, g, _ :: _, vis => ⟨.capped, iters, g, vis⟩
  | fuel + 1, iters, g, c :: rest, vis =>
    if 10000 ≤ iters then ⟨.capped, iters, g, vis⟩
    else
      if c = target then ⟨.found, iters + 1, g, vis⟩
      else if is_terminal_string g c then bfsLoop target fuel (iters + 1) g rest vis
      else if target.length < c.length then bfsLoop target fuel (iters + 1) g rest vis
      else
        let eg := get_expansions g c
        let qv := enqueueNew (fun _ => true) eg.1 rest vis
        bfsLoop target fuel (iters + 1) eg.2 qv.1 qv.2

/-- The run of the `_bfs_parse` loop from the start symbol. -/
def bfsRunOf (g : Grammar) (target s : Str) : BfsRun := bfsLoop target 10000 0 g [s] [s]

/-- `_bfs_parse(target)`: false at once on a falsy start symbol, otherwise true
exactly when the bounded search finds the target. -/
def bfs_parse (g : Grammar) (target : Str) : Bool × Grammar :=
  match g.start_symbol with
  | none => (false, g)
  | some s =>
    if s = [] then (false, g)
    else
      let run := bfsRunOf g target s
      (decide (run.outcome = .found), run.g)

/-- `belongs_to_grammar(word)`: the empty word goes to the empty-string
reachability check; a word with a character outside the terminal set is
rejected at once; otherwise the BFS membership search decides. -/
def belongs_to_grammar (g : Grammar) (word : Str) : Except Unit Bool × Grammar :=
  if word = [] then can_produce_empty g
  else if !word.all (fun c => decide (c ∈ g.terminals)) then (Except.ok false, g)
  else
    let r := bfs_parse g word
    (Except.ok r.1, r.2)

/-- The example grammar text offered by `main`. -/
def exampleText : Str :=
  ("\n        S -> aB | bA\n        A -> a | aS | bAA\n        B -> b | bS | aBB\n        ").data

/-- The example grammar as `main` builds it. -/
def exampleGrammar : Grammar := parse_grammar initProcessor exampleText

/-- The grammar models `g` and `g'` are observationally the same: equal
terminal and non-terminal sets and start symbol, and the productions mapping is
extensionally the same function (under the `defaultdict` reading where a
missing key denotes `[]`). -/
def GEquiv (g g' : Grammar) : Prop :=
  g'.terminals = g.terminals ∧ g'.non_terminals = g.non_terminals ∧
    g'.start_symbol = g.start_symbol ∧ ∀ k, lookupD g' k = lookupD g k

/-- `g'` is `g` with the other three fields unchanged and the productions
association list extended, if at all, only by entries carrying empty
production lists (the `defaultdict` insertions). -/
def ProdExtend (g g' : Grammar) : Prop :=
  g'.terminals = g.terminals ∧ g'.non_terminals = g.non_terminals ∧
    g'.start_symbol = g.start_symbol ∧
    ∃ ex, g'.productions = g.productions ++ ex ∧ ∀ p ∈ ex, p.2 = []

/-- One application of a production at the leftmost non-terminal. -/
def lmStep (g : Grammar) (x y : Str) : Prop := y ∈ pureExpansions g x

/-- Reachability by leftmost production applications in which every expanded
form fails `_is_terminal_string` — exactly the forms the searches expand. -/
inductive GenReach (g : Grammar) : Str → Str → Prop where
  | refl (s : Str) : GenReach g s s
  | step {s t u : Str} : GenReach g s t → is_terminal_string g t = false →
      u ∈ pureExpansions g t → GenReach g s u

/-- No stored production has an empty right-hand side. -/
def noEmptyRhs (g : Grammar) : Prop := ∀ p ∈ g.productions, ∀ r ∈ p.2, r ≠ []

/-- Closure property of the final visited set of an emptied `_bfs_parse` run:
the member is not the target, and if it was expandable (non-terminal,
not longer than the target) then all its expansions were visited. -/
def BfsClosed (g : Grammar) (target : Str) (V : List Str) (x : Str) : Prop :=
  x ≠ target ∧ (is_terminal_string g x = false → x.length ≤ target.length →
    ∀ y ∈ pureExpansions g x, y ∈ V)

/-- All strings of length at most `n` over the alphabet `A`. -/
def listsUpTo (A : Finset Char) : Nat → Finset Str
  | 0 => {[]}
  | n + 1 => insert [] ((A ×ˢ listsUpTo A n).image (fun p => p.1 :: p.2))

/-- Weight of a character for the balance argument on the example grammar:
`a` and `A` weigh `1`, `b` and `B` weigh `-1`, everything else `0`. -/
def charWeight (c : Char) : Int :=
  if c = 'a' ∨ c = 'A' then 1 else if c = 'b' ∨ c = 'B' then -1 else 0

/-- Weight of a sentential form: the sum of its character weights. -/
def strWeight (s : Str) : Int := (s.map charWeight).sum

/-- The value `parse_grammar` computes for the example grammar text
(established below by evaluation). -/
def exampleGrammarVal : Grammar :=
  ⟨[(['S'], [['a', 'B'], ['b', 'A']]),
    (['A'], [['a'], ['a', 'S'], ['b', 'A', 'A']]),
    (['B'], [['b'], ['b', 'S'], ['a', 'B', 'B']])],
   ['a', 'b'], [['S'], ['B'], ['A']], some ['S']⟩

/-- A grammar with an empty right-hand side: `S -> aAb` and `A -> ` (epsilon). -/
def epsilonGrammar : Grammar := parse_grammar initProcessor ("S -> aAb\nA ->").data

/-- A grammar whose right-hand side uses a non-terminal `B` that never occurs
on a left-hand side, so `B` is missing from the productions mapping. -/
def undefinedNtGrammar : Grammar := parse_grammar initProcessor ("S -> aB").data

/-- A grammar whose start symbol is a 26-character string (the whole left-hand
side of its only line). -/
def longStartGrammar : Grammar :=
  parse_grammar initProcessor ("ABCDEFGHIJKLMNOPQRSTUVWXYZ -> a").data

/-! ### State preservation: the `defaultdict` mutation is observationally inert -/

theorem assocFind_mem {ps : List (Str × List Str)} {k : Str} {v : List Str}
    (h : assocFind ps k = some v) : (k, v) ∈ ps := by
  induction ps with
  | nil => simp [assocFind] at h
  | cons p rest ih =>
    obtain ⟨a, w⟩ := p
    by_cases hak : a = k
    · subst hak
      simp [assocFind] at h
      subst h
      exact List.mem_cons_self _ _
    · simp only [assocFind, if_neg hak] at h
      exact List.mem_cons_of_mem _ (ih h)

theorem assocFind_append_some {l1 : List (Str × List Str)} {k : Str} {v : List Str}
    (l2 : List (Str × List Str)) (h : assocFind l1 k = some v) :
    assocFind (l1 ++ l2) k = some v := by
  induction l1 with
  | nil => simp [assocFind] at h
  | cons p rest ih =>
    obtain ⟨a, w⟩ := p
    by_cases hak : a = k
    · simp_all [assocFind]
    · simp only [assocFind, if_neg hak] at h ⊢
      exact ih h

theorem assocFind_append_none {l1 : List (Str × List Str)} {k : Str}
    (l2 : List (Str × List Str)) (h : assocFind l1 k = none) :
    assocFind (l1 ++ l2) k = assocFind l2 k := by
  induction l1 with
  | nil => simp [assocFind]
  | cons p rest ih =>
    obtain ⟨a, w⟩ := p
    by_cases hak : a = k
    · simp_all [assocFind]
    · simp only [assocFind, if_neg hak] at h ⊢
      exact ih h

theorem prodExtend_refl (g : Grammar) : ProdExtend g g :=
  ⟨rfl, rfl, rfl, [], by simp, by simp⟩

theorem prodExtend_trans {g g' g'' : Grammar} (h1 : ProdExtend g g')
    (h2 : ProdExtend g' g'') : ProdExtend g g'' := by
  obtain ⟨ht1, hn1, hs1, ex1, he1, hp1⟩ := h1
  obtain ⟨ht2, hn2, hs2, ex2, he2, hp2⟩ := h2
  refine ⟨ht2.trans ht1, hn2.trans hn1, hs2.trans hs1, ex1 ++ ex2, ?_, ?_⟩
  · rw [he2, he1, List.append_assoc]
  · intro p hp
    rcases List.mem_append.mp hp with h | h
    · exact hp1 p h
    · exact hp2 p h

theorem ProdExtend.lookupD_eq {g g' : Grammar} (h : ProdExtend g g') (k : Str) :
    lookupD g' k = lookupD g k := by
  obtain ⟨_, _, _, ex, hex, hemp⟩ := h
  unfold lookupD
  rw [hex]
  cases h1 : assocFind g.productions k with
  | some v => rw [assocFind_append_some ex h1]
  | none =>
    rw [assocFind_append_none ex h1]
    cases h2 : assocFind ex k with
    | none => rfl
    | some v =>
      have hv : v = [] := hemp (k, v) (assocFind_mem h2)
      simp [hv]

theorem ProdExtend.gequiv {g g' : Grammar} (h : ProdExtend g g') : GEquiv g g' :=
  ⟨h.1, h.2.1, h.2.2.1, fun k => h.lookupD_eq k⟩

theorem gequiv_refl (g : Grammar) : GEquiv g g := ⟨rfl, rfl, rfl, fun _ => rfl⟩

theorem gequiv_trans {g g' g'' : Grammar} (h1 : GEquiv g g') (h2 : GEquiv g' g'') :
    GEquiv g g'' :=
  ⟨h2.1.trans h1.1, h2.2.1.trans h1.2.1, h2.2.2.1.trans h1.2.2.1,
    fun k => (h2.2.2.2 k).trans (h1.2.2.2 k)⟩

theorem getProds_fst (g : Grammar) (k : Str) : (getProds g k).1 = lookupD g k := by
  unfold getProds lookupD
  cases h : assocFind g.productions k <;> simp

theorem getProds_prodExtend (g : Grammar) (k : Str) : ProdExtend g (getProds g k).2 := by
  unfold getProds
  cases h : assocFind g.productions k with
  | some v => exact prodExtend_refl g
  | none =>
    refine ⟨rfl, rfl, rfl, [(k, [])], rfl, ?_⟩
    simp

theorem getExpansionsAux_fst (g : Grammar) (pre rest : Str) :
    (getExpansionsAux g pre rest).1 = pureExpansionsAux g pre rest := by
  induction rest generalizing pre with
  | nil => rfl
  | cons c cs ih =>
    by_cases h : [c] ∈ g.non_terminals
    · simp [getExpansionsAux, pureExpansionsAux, h, getProds_fst]
    · simp [getExpansionsAux, pureExpansionsAux, h, ih]

theorem getExpansionsAux_prodExtend (g : Grammar) (pre rest : Str) :
    ProdExtend g (getExpansionsAux g pre rest).2 := by
  induction rest generalizing pre with
  | nil => exact prodExtend_refl g
  | cons c cs ih =>
    by_cases h : [c] ∈ g.non_terminals
    · simp only [getExpansionsAux, if_pos h]
      exact getProds_prodExtend g [c]
    · simp only [getExpansionsAux, if_neg h]
      exact ih _

theorem get_expansions_fst (g : Grammar) (current : Str) :
    (get_expansions g current).1 = pureExpansions g current :=
  getExpansionsAux_fst g [] current

theorem get_expansions_prodExtend (g : Grammar) (current : Str) :
    ProdExtend g (get_expansions g current).2 :=
  getExpansionsAux_prodExtend g [] current

theorem pureExpansionsAux_congr {g g' : Grammar} (h : GEquiv g g') (pre rest : Str) :
    pureExpansionsAux g' pre rest = pureExpansionsAux g pre rest := by
  induction rest generalizing pre with
  | nil => rfl
  | cons c cs ih =>
    simp only [pureExpansionsAux, h.2.1, h.2.2.2 [c]]
    by_cases hc : [c] ∈ g.non_terminals
    · simp [hc]
    · simp [hc, ih]

theorem pureExpansions_congr {g g' : Grammar} (h : GEquiv g g') (x : Str) :
    pureExpansions g' x = pureExpansions g x :=
  pureExpansionsAux_congr h [] x

theorem is_terminal_string_congr {g g' : Grammar} (h : GEquiv g g') (s : Str) :
    is_terminal_string g' s = is_terminal_string g s := by
  unfold is_terminal_string
  rw [h.1]

/-! ### Structure of one-step expansions -/

theorem pureExpansionsAux_eq_nil {g : Grammar} {rest : Str} (pre : Str)
    (h : ∀ c ∈ rest, [c] ∉ g.non_terminals) : pureExpansionsAux g pre rest = [] := by
  induction rest generalizing pre with
  | nil => rfl
  | cons c cs ih =>
    have hc : [c] ∉ g.non_terminals := h c (List.mem_cons_self _ _)
    simp only [pureExpansionsAux, if_neg hc]
    exact ih _ (fun d hd => h d (List.mem_cons_of_mem _ hd))

theorem pureExpansionsAux_decomp {g : Grammar} (pre p : Str) (c : Char) (suf : Str)
    (hp : ∀ c' ∈ p, [c'] ∉ g.non_terminals) (hc : [c] ∈ g.non_terminals) :
    pureExpansionsAux g pre (p ++ c :: suf) =
      (lookupD g [c]).map (fun rhs => (pre ++ p) ++ rhs ++ suf) := by
  induction p generalizing pre with
  | nil => simp [pureExpansionsAux, hc]
  | cons d ds ih =>
    have hd : [d] ∉ g.non_terminals := hp d (List.mem_cons_self _ _)
    simp only [List.cons_append, pureExpansionsAux, if_neg hd, List.append_eq]
    rw [ih (pre ++ [d]) (fun e he => hp e (List.mem_cons_of_mem _ he))]
    simp [List.append_assoc]

theorem pureExpansions_decomp {g : Grammar} (p : Str) (c : Char) (suf : Str)
    (hp : ∀ c' ∈ p, [c'] ∉ g.non_terminals) (hc : [c] ∈ g.non_terminals) :
    pureExpansions g (p ++ c :: suf) =
      (lookupD g [c]).map (fun rhs => p ++ rhs ++ suf) := by
  unfold pureExpansions
  rw [pureExpansionsAux_decomp [] p c suf hp hc]
  simp

theorem pureExpansions_eq_nil {g : Grammar} {x : Str}
    (h : ∀ c ∈ x, [c] ∉ g.non_terminals) : pureExpansions g x = [] :=
  pureExpansionsAux_eq_nil [] h

theorem pureExpansionsAux_mem {g : Grammar} {pre rest y : Str}
    (h : y ∈ pureExpansionsAux g pre rest) :
    ∃ p c suf rhs, rest = p ++ c :: suf ∧ (∀ c' ∈ p, [c'] ∉ g.non_terminals) ∧
      [c] ∈ g.non_terminals ∧ rhs ∈ lookupD g [c] ∧ y = (pre ++ p) ++ rhs ++ suf := by
  induction rest generalizing pre with
  | nil => simp [pureExpansionsAux] at h
  | cons c cs ih =>
    by_cases hc : [c] ∈ g.non_terminals
    · simp only [pureExpansionsAux, if_pos hc, List.mem_map] at h
      obtain ⟨rhs, hrhs, hy⟩ := h
      exact ⟨[], c, cs, rhs, by simp, by simp, hc, hrhs, by simp [hy.symm]⟩
    · simp only [pureExpansionsAux, if_neg hc] at h
      obtain ⟨p, c', suf, rhs, hcs, hpnot, hc', hrhs, hy⟩ := ih h
      refine ⟨c :: p, c', suf, rhs, by rw [hcs, List.cons_append], ?_, hc', hrhs, ?_⟩
      · intro e he
        rcases List.mem_cons.mp he with rfl | he
        · exact hc
        · exact hpnot e he
      · rw [hy]
        simp [List.append_assoc]

theorem pureExpansions_mem {g : Grammar} {x y : Str} (h : y ∈ pureExpansions g x) :
    ∃ p c suf rhs, x = p ++ c :: suf ∧ (∀ c' ∈ p, [c'] ∉ g.non_terminals) ∧
      [c] ∈ g.non_terminals ∧ rhs ∈ lookupD g [c] ∧ y = p ++ rhs ++ suf := by
  obtain ⟨p, c, suf, rhs, hx, hpnot, hc, hrhs, hy⟩ := pureExpansionsAux_mem h
  exact ⟨p, c, suf, rhs, hx, hpnot, hc, hrhs, by simpa using hy⟩

theorem lookupD_mem_ne_nil {g : Grammar} (hne : noEmptyRhs g) {k rhs : Str}
    (h : rhs ∈ lookupD g k) : rhs ≠ [] := by
  unfold lookupD at h
  cases hf : assocFind g.productions k with
  | none => rw [hf] at h; simp at h
  | some v =>
    rw [hf] at h
    exact hne (k, v) (assocFind_mem hf) rhs h

theorem lmStep_length_le {g : Grammar} (hne : noEmptyRhs g) {x y : Str}
    (h : y ∈ pureExpansions g x) : x.length ≤ y.length := by
  obtain ⟨p, c, suf, rhs, hx, _, _, hrhs, hy⟩ := pureExpansions_mem h
  have h1 : rhs ≠ [] := lookupD_mem_ne_nil hne hrhs
  have h2 : 1 ≤ rhs.length := by
    cases rhs with
    | nil => exact absurd rfl h1
    | cons _ _ => simp
  subst hx hy
  simp only [List.length_append, List.length_cons]
  omega

theorem lmStep_ne_nil {g : Grammar} (hne : noEmptyRhs g) {x y : Str}
    (h : y ∈ pureExpansions g x) : y ≠ [] := by
  obtain ⟨p, c, suf, rhs, hx, _, _, hrhs, hy⟩ := pureExpansions_mem h
  have h1 : rhs ≠ [] := lookupD_mem_ne_nil hne hrhs
  subst hy
  intro hcon
  rcases List.append_eq_nil.mp hcon with ⟨h2, _⟩
  exact h1 (List.append_eq_nil.mp h2).2

theorem pureExpansions_chars {g : Grammar} {x y : Str} (h : y ∈ pureExpansions g x)
    {c : Char} (hcy : c ∈ y) :
    c ∈ x ∨ ∃ kv ∈ g.productions, ∃ r ∈ kv.2, c ∈ r := by
  obtain ⟨p, d, suf, rhs, hx, _, _, hrhs, hy⟩ := pureExpansions_mem h
  subst hx hy
  rcases List.mem_append.mp hcy with hcy | hcy
  · rcases List.mem_append.mp hcy with hcy | hcy
    · exact Or.inl (List.mem_append.mpr (Or.inl hcy))
    · right
      unfold lookupD at hrhs
      cases hf : assocFind g.productions [d] with
      | none => rw [hf] at hrhs; simp at hrhs
      | some v =>
        rw [hf] at hrhs
        exact ⟨([d], v), assocFind_mem hf, rhs, hrhs, hcy⟩
  · exact Or.inl (List.mem_append.mpr (Or.inr (List.mem_cons_of_mem _ hcy)))

/-! ### The enqueue step -/

theorem enqueueNew_spec (guard : Str → Bool) (items : List Str) (q vis : List Str) :
    ∃ new, enqueueNew guard items q vis = (q ++ new, vis ++ new) ∧
      (∀ x ∈ new, x ∉ vis ∧ guard x = true ∧ x ∈ items) ∧
      (vis.Nodup → (vis ++ new).Nodup) := by
  induction items generalizing q vis with
  | nil => exact ⟨[], by simp [enqueueNew], by simp, by simp⟩
  | cons e es ih =>
    show ∃ new,
      List.foldl _ (if e ∈ (q, vis).2 then (q, vis)
        else if guard e then ((q, vis).1 ++ [e], (q, vis).2 ++ [e]) else (q, vis)) es =
        (q ++ new, vis ++ new) ∧ _
    by_cases he : e ∈ vis
    · simp only [if_pos he]
      obtain ⟨new, h1, h2, h3⟩ := ih q vis
      exact ⟨new, h1, fun x hx => ⟨(h2 x hx).1, (h2 x hx).2.1,
        List.mem_cons_of_mem _ (h2 x hx).2.2⟩, h3⟩
    · by_cases hg : guard e
      · simp only [if_neg he, if_pos hg]
        obtain ⟨new, h1, h2, h3⟩ := ih (q ++ [e]) (vis ++ [e])
        refine ⟨e :: new, ?_, ?_, ?_⟩
        · show enqueueNew guard es (q ++ [e]) (vis ++ [e]) = _
          rw [h1]
          simp
        · intro x hx
          rcases List.mem_cons.mp hx with rfl | hx
          · exact ⟨he, hg, List.mem_cons_self _ _⟩
          · obtain ⟨hx1, hx2, hx3⟩ := h2 x hx
            refine ⟨fun hc => hx1 (List.mem_append.mpr (Or.inl hc)),
              hx2, List.mem_cons_of_mem _ hx3⟩
        · intro hnd
          have hnd' : (vis ++ [e]).Nodup := by
            rw [List.nodup_append]
            exact ⟨hnd, List.nodup_singleton e, by simpa using he⟩
          have := h3 hnd'
          simpa [List.append_assoc] using this
      · simp only [if_neg he, if_neg hg]
        obtain ⟨new, h1, h2, h3⟩ := ih q vis
        exact ⟨new, h1, fun x hx => ⟨(h2 x hx).1, (h2 x hx).2.1,
          List.mem_cons_of_mem _ (h2 x hx).2.2⟩, h3⟩

theorem enqueueNew_vis_subset (guard : Str → Bool) (items : List Str) (q vis : List Str) :
    ∀ x ∈ vis, x ∈ (enqueueNew guard items q vis).2 := by
  obtain ⟨new, h1, _, _⟩ := enqueueNew_spec guard items q vis
  rw [h1]
  intro x hx
  exact List.mem_append.mpr (Or.inl hx)

theorem enqueueNew_mem_snd (guard : Str → Bool) (items : List Str) (q vis : List Str)
    (hall : ∀ x ∈ items, guard x = true) : ∀ x ∈ items, x ∈ (enqueueNew guard items q vis).2 := by
  induction items generalizing q vis with
  | nil => simp
  | cons e es ih =>
    intro x hx
    show x ∈ (List.foldl _ (if e ∈ (q, vis).2 then (q, vis)
      else if guard e then ((q, vis).1 ++ [e], (q, vis).2 ++ [e]) else (q, vis)) es).2
    by_cases he : e ∈ vis
    · simp only [if_pos he]
      rcases List.mem_cons.mp hx with rfl | hx
      · exact enqueueNew_vis_subset _ es q vis x he
      · exact ih q vis (fun y hy => hall y (List.mem_cons_of_mem _ hy)) x hx
    · have hg : guard e = true := hall e (List.mem_cons_self _ _)
      simp only [if_neg he, if_pos hg]
      rcases List.mem_cons.mp hx with hxe | hx
      · have hmem : x ∈ vis ++ [e] := by
          rw [hxe]
          exact List.mem_append.mpr (Or.inr (List.mem_singleton.mpr rfl))
        exact enqueueNew_vis_subset _ es (q ++ [e]) (vis ++ [e]) x hmem
      · exact ih (q ++ [e]) (vis ++ [e]) (fun y hy => hall y (List.mem_cons_of_mem _ hy)) x hx

/-! ### Set insertion -/

theorem insertSet_mem {x y : Str} {s : List Str} (h : y ∈ insertSet x s) :
    y = x ∨ y ∈ s := by
  unfold insertSet at h
  by_cases hx : x ∈ s
  · rw [if_pos hx] at h
    exact Or.inr h
  · rw [if_neg hx] at h
    rcases List.mem_append.mp h with h | h
    · exact Or.inr h
    · exact Or.inl (List.mem_singleton.mp h)

theorem insertSet_mem_self (x : Str) (s : List Str) : x ∈ insertSet x s := by
  unfold insertSet
  by_cases hx : x ∈ s
  · rw [if_pos hx]; exact hx
  · rw [if_neg hx]; simp

theorem insertSet_nodup {x : Str} {s : List Str} (h : s.Nodup) : (insertSet x s).Nodup := by
  unfold insertSet
  by_cases hx : x ∈ s
  · rw [if_pos hx]; exact h
  · rw [if_neg hx]
    rw [List.nodup_append]
    exact ⟨h, List.nodup_singleton x, by simpa using hx⟩

theorem insertSet_length_le (x : Str) (s : List Str) :
    (insertSet x s).length ≤ s.length + 1 := by
  unfold insertSet
  by_cases hx : x ∈ s
  · rw [if_pos hx]; omega
  · rw [if_neg hx]; simp

/-! ### Lexicographic comparison and sorting -/

theorem lexLt_irrefl (x : Str) : lexLt x x = false := by
  induction x with
  | nil => rfl
  | cons a as ih => simp [lexLt, ih]

theorem lexLt_trans : ∀ {x y z : Str}, lexLt x y = true → lexLt y z = true →
    lexLt x z = true := by
  intro x
  induction x with
  | nil =>
    intro y z hxy hyz
    cases y with
    | nil => simp [lexLt] at hxy
    | cons b bs =>
      cases z with
      | nil => simp [lexLt] at hyz
      | cons c cs => simp [lexLt]
  | cons a as ih =>
    intro y z hxy hyz
    cases y with
    | nil => simp [lexLt] at hxy
    | cons b bs =>
      cases z with
      | nil => simp [lexLt] at hyz
      | cons c cs =>
        simp only [lexLt, Bool.or_eq_true, decide_eq_true_eq, Bool.and_eq_true,
          decide_eq_true_eq] at hxy hyz ⊢
        rcases hxy with hab | ⟨hab, htail⟩
        · rcases hyz with hbc | ⟨hbc, _⟩
          · exact Or.inl (lt_trans hab hbc)
          · exact Or.inl (hbc ▸ hab)
        · rcases hyz with hbc | ⟨hbc, htail'⟩
          · exact Or.inl (hab ▸ hbc)
          · exact Or.inr ⟨hab.trans hbc, ih htail htail'⟩

theorem lexLt_connex : ∀ {x y : Str}, x ≠ y → lexLt x y = true ∨ lexLt y x = true := by
  intro x
  induction x with
  | nil =>
    intro y h
    cases y with
    | nil => exact absurd rfl h
    | cons b bs => exact Or.inl (by simp [lexLt])
  | cons a as ih =>
    intro y h
    cases y with
    | nil => exact Or.inr (by simp [lexLt])
    | cons b bs =>
      rcases lt_trichotomy a b with hab | hab | hab
      · exact Or.inl (by simp [lexLt, hab])
      · subst hab
        have hne : as ≠ bs := fun hc => h (by rw [hc])
        rcases ih hne with htail | htail
        · exact Or.inl (by simp [lexLt, htail])
        · exact Or.inr (by simp [lexLt, htail])
      · exact Or.inr (by simp [lexLt, hab])

theorem insSorted_perm (x : Str) (l : List Str) : (insSorted x l).Perm (x :: l) := by
  induction l with
  | nil => exact List.Perm.refl _
  | cons y ys ih =>
    unfold insSorted
    by_cases h : lexLt x y
    · rw [if_pos h]
    · rw [if_neg h]
      exact (ih.cons y).trans (List.Perm.swap x y ys)

theorem sortStrs_perm (l : List Str) : (sortStrs l).Perm l := by
  induction l with
  | nil => exact List.Perm.refl _
  | cons x xs ih => exact (insSorted_perm x (sortStrs xs)).trans (ih.cons x)

theorem sortStrs_mem {l : List Str} {x : Str} : x ∈ sortStrs l ↔ x ∈ l :=
  (sortStrs_perm l).mem_iff

theorem sortStrs_length (l : List Str) : (sortStrs l).length = l.length :=
  (sortStrs_perm l).length_eq

theorem insSorted_pairwise {x : Str} {l : List Str}
    (hl : l.Pairwise (fun a b => lexLt a b = true)) (hx : ∀ y ∈ l, x ≠ y) :
    (insSorted x l).Pairwise (fun a b => lexLt a b = true) := by
  induction l with
  | nil => simp [insSorted]
  | cons y ys ih =>
    rcases List.pairwise_cons.mp hl with ⟨hy, hys⟩
    unfold insSorted
    by_cases h : lexLt x y
    · rw [if_pos h]
      refine List.pairwise_cons.mpr ⟨?_, hl⟩
      intro z hz
      rcases List.mem_cons.mp hz with rfl | hz
      · exact h
      · exact lexLt_trans h (hy z hz)
    · rw [if_neg h]
      refine List.pairwise_cons.mpr ⟨?_, ?_⟩
      · intro z hz
        rcases List.mem_cons.mp ((insSorted_perm x ys).mem_iff.mp hz) with hzx | hz
        · have hxy : x ≠ y := hx y (List.mem_cons_self _ _)
          rcases lexLt_connex hxy with hc | hc
          · exact absurd hc (by simpa using h)
          · rw [hzx]
            exact hc
        · exact hy z hz
      · exact ih hys (fun z hz => hx z (List.mem_cons_of_mem _ hz))

theorem sortStrs_pairwise {l : List Str} (h : l.Nodup) :
    (sortStrs l).Pairwise (fun a b => lexLt a b = true) := by
  induction l with
  | nil => simp [sortStrs]
  | cons x xs ih =>
    rcases List.nodup_cons.mp h with ⟨hx, hxs⟩
    exact insSorted_pairwise (ih hxs)
      (fun y hy hc => hx (hc ▸ sortStrs_mem.mp hy))

/-! ### Basic characterisations -/

theorem is_terminal_string_iff {g : Grammar} {s : Str} :
    is_terminal_string g s = true ↔ ∀ c ∈ s, c ∈ g.terminals := by
  simp [is_terminal_string, List.all_eq_true]

theorem exampleGrammar_val : exampleGrammar = exampleGrammarVal := by decide

/-! ### The searches only extend the productions mapping with empty entries -/

theorem genLoop_some_prodExtend (L N : Nat) :
    ∀ (fuel : Nat) (g : Grammar) (q vis words : List Str) (out : List Str × Grammar),
    genLoop L N fuel g q vis words = some out → ProdExtend g out.2 := by
  intro fuel
  induction fuel with
  | zero =>
    intro g q vis words out h
    cases q with
    | nil =>
      simp only [genLoop, Option.some.injEq] at h
      rw [← h]
      exact prodExtend_refl g
    | cons c rest =>
      simp only [genLoop] at h
      by_cases hN : N ≤ words.length
      · rw [if_pos hN] at h
        simp only [Option.some.injEq] at h
        rw [← h]
        exact prodExtend_refl g
      · rw [if_neg hN] at h
        simp at h
  | succ fuel ih =>
    intro g q vis words out h
    cases q with
    | nil =>
      simp only [genLoop, Option.some.injEq] at h
      rw [← h]
      exact prodExtend_refl g
    | cons c rest =>
      simp only [genLoop] at h
      by_cases hN : N ≤ words.length
      · rw [if_pos hN] at h
        simp only [Option.some.injEq] at h
        rw [← h]
        exact prodExtend_refl g
      · rw [if_neg hN] at h
        by_cases ht : is_terminal_string g c
        · rw [if_pos ht] at h
          exact ih g rest vis _ out h
        · rw [if_neg ht] at h
          by_cases hl : L < c.length
          · rw [if_pos hl] at h
            exact ih g rest vis words out h
          · rw [if_neg hl] at h
            exact prodExtend_trans (get_expansions_prodExtend g c)
              (ih (get_expansions g c).2 _ _ words out h)

theorem emptyLoop_prodExtend :
    ∀ (fuel : Nat) (g : Grammar) (q vis trace : List Str),
    ProdExtend g (emptyLoop fuel g q vis trace).g := by
  intro fuel
  induction fuel with
  | zero =>
    intro g q vis trace
    cases q with
    | nil => exact prodExtend_refl g
    | cons c rest => exact prodExtend_refl g
  | succ fuel ih =>
    intro g q vis trace
    cases q with
    | nil => exact prodExtend_refl g
    | cons c rest =>
      simp only [emptyLoop]
      by_cases hc : c = []
      · rw [if_pos hc]
        exact prodExtend_refl g
      · rw [if_neg hc]
        by_cases ht : is_terminal_string g c
        · rw [if_pos ht]
          exact ih g rest vis _
        · rw [if_neg ht]
          exact prodExtend_trans (get_expansions_prodExtend g c) (ih _ _ _ _)

theorem bfsLoop_prodExtend (target : Str) :
    ∀ (fuel iters : Nat) (g : Grammar) (q vis : List Str),
    ProdExtend g (bfsLoop target fuel iters g q vis).g := by
  intro fuel
  induction fuel with
  | zero =>
    intro iters g q vis
    cases q with
    | nil => exact prodExtend_refl g
    | cons c rest => exact prodExtend_refl g
  | succ fuel ih =>
    intro iters g q vis
    cases q with
    | nil => exact prodExtend_refl g
    | cons c rest =>
      simp only [bfsLoop]
      by_cases hi : 10000 ≤ iters
      · rw [if_pos hi]
        exact prodExtend_refl g
      · rw [if_neg hi]
        by_cases hc : c = target
        · rw [if_pos hc]
          exact prodExtend_refl g
        · rw [if_neg hc]
          by_cases ht : is_terminal_string g c
          · rw [if_pos ht]
            exact ih _ g rest vis
          · rw [if_neg ht]
            by_cases hl : target.length < c.length
            · rw [if_pos hl]
              exact ih _ g rest vis
            · rw [if_neg hl]
              exact prodExtend_trans (get_expansions_prodExtend g c) (ih _ _ _ _)

theorem generate_words_prodExtend (g : Grammar) (L N : Nat) :
    ProdExtend g (generate_words g L N).2 := by
  cases hs : g.start_symbol with
  | none =>
    simp only [generate_words, hs]
    exact prodExtend_refl g
  | some s =>
    simp only [generate_words, hs]
    by_cases hnil : s = []
    · rw [if_pos hnil]
      exact prodExtend_refl g
    · rw [if_neg hnil]
      cases hgl : genLoop L N (genFuel g L) g [s] [s] [] with
      | none =>
        simp only [hgl]
        exact prodExtend_refl g
      | some out =>
        simp only [hgl]
        exact genLoop_some_prodExtend L N _ g [s] [s] [] out hgl

theorem can_produce_empty_prodExtend (g : Grammar) :
    ProdExtend g (can_produce_empty g).2 := by
  unfold can_produce_empty
  cases hs : g.start_symbol with
  | none => exact prodExtend_refl g
  | some s =>
    cases hr : (emptyRunOf g s).result with
    | some b =>
      simp only [hr]
      exact emptyLoop_prodExtend (emptyFuel g) g [s] [s] []
    | none =>
      simp only [hr]
      exact emptyLoop_prodExtend (emptyFuel g) g [s] [s] []

theorem bfs_parse_prodExtend (g : Grammar) (target : Str) :
    ProdExtend g (bfs_parse g target).2 := by
  cases hs : g.start_symbol with
  | none =>
    simp only [bfs_parse, hs]
    exact prodExtend_refl g
  | some s =>
    simp only [bfs_parse, hs]
    by_cases hnil : s = []
    · rw [if_pos hnil]
      exact prodExtend_refl g
    · rw [if_neg hnil]
      exact bfsLoop_prodExtend target 10000 0 g [s] [s]

theorem belongs_to_grammar_prodExtend (g : Grammar) (word : Str) :
    ProdExtend g (belongs_to_grammar g word).2 := by
  unfold belongs_to_grammar
  by_cases hw : word = []
  · rw [if_pos hw]
    exact can_produce_empty_prodExtend g
  · rw [if_neg hw]
    by_cases hall : !word.all (fun c => decide (c ∈ g.terminals))
    · rw [if_pos hall]
      exact prodExtend_refl g
    · rw [if_neg hall]
      exact bfs_parse_prodExtend g word

/-! ### Claims C2, C3, C5, C7 -/

theorem belongs_no_error_of_start {g : Grammar} {s : Str}
    (h : g.start_symbol = some s) (w : Str) :
    ∃ b, (belongs_to_grammar g w).1 = Except.ok b := by
  unfold belongs_to_grammar
  by_cases hw : w = []
  · rw [if_pos hw]
    simp only [can_produce_empty, h]
    cases hr : (emptyRunOf g s).result with
    | some b => exact ⟨b, by simp [hr]⟩
    | none => exact ⟨false, by simp [hr]⟩
  · rw [if_neg hw]
    by_cases hall : !w.all (fun c => decide (c ∈ g.terminals))
    · rw [if_pos hall]
      exact ⟨false, rfl⟩
    · rw [if_neg hall]
      exact ⟨(bfs_parse g w).1, rfl⟩

/-- C3: the claim that `belongs_to_grammar` never raises fails in the unparsed
state.  With `start_symbol = None`, `belongs_to_grammar("")` calls
`_can_produce_empty`, which enqueues `None` and then calls
`_is_terminal_string(None)`; iterating over `None` raises `TypeError`.  The
guard `if not self.start_symbol` present in `generate_words` and `_bfs_parse`
is missing from `_can_produce_empty`, so the spec's "searches never fail with
an exception" is the evident intent and this is a slip in the code. -/
theorem C3_belongs_empty_unparsed_raises :
    belongs_to_grammar initProcessor [] = (Except.error (), initProcessor) := by decide

/-- C2 counterexample: for the grammar `S -> aB` (where `B` never occurs on a
left-hand side), a `generate_words` call mutates the productions mapping — the
`defaultdict` lookup `self.productions['B']` inserts the key `B` — so the
grammar fields after the call are not exactly what `parse_grammar`
constructed. -/
theorem C2_counterexample :
    (generate_words undefinedNtGrammar 2 10).2.productions ≠
      undefinedNtGrammar.productions := by decide

/-- C2 (amended): every call to `generate_words` or `belongs_to_grammar` keeps
the terminal set, non-terminal set and start symbol unchanged, and changes the
productions mapping at most by appending entries with empty production lists
for right-hand-side-only non-terminals (the `defaultdict` effect) — so the
mapping is unchanged as a function from non-terminals to production lists. -/
theorem C2_grammar_state_read_only (g : Grammar) (L N : Nat) (w : Str) :
    ProdExtend g (generate_words g L N).2 ∧ ProdExtend g (belongs_to_grammar g w).2 :=
  ⟨generate_words_prodExtend g L N, belongs_to_grammar_prodExtend g w⟩

/-- C5: `_get_expansions` returns exactly the substitutions of the stored
productions of the leftmost non-terminal of the form, with prefix and suffix
unchanged and in stored order; a form with no non-terminal yields `[]`. -/
theorem C5_expansions_characterised (g : Grammar) (s : Str) :
    ((∀ c ∈ s, [c] ∉ g.non_terminals) → (get_expansions g s).1 = []) ∧
    (∀ (pre : Str) (c : Char) (suf : Str), s = pre ++ c :: suf →
      (∀ c' ∈ pre, [c'] ∉ g.non_terminals) → [c] ∈ g.non_terminals →
      (get_expansions g s).1 = (lookupD g [c]).map (fun rhs => pre ++ rhs ++ suf)) := by
  constructor
  · intro h
    rw [get_expansions_fst]
    exact pureExpansions_eq_nil h
  · intro pre c suf hs hpre hc
    rw [get_expansions_fst, hs]
    exact pureExpansions_decomp pre c suf hpre hc

theorem C5_witness :
    (get_expansions exampleGrammar ['a', 'B']).1 =
      (lookupD exampleGrammar ['B']).map (fun rhs => ['a'] ++ rhs ++ []) :=
  (C5_expansions_characterised exampleGrammar ['a', 'B']).2 ['a'] 'B' []
    (by decide) (by decide) (by decide)

/-- C7: a nonempty word containing a character outside the terminal alphabet is
rejected at once — the result is `false` and the grammar state is untouched,
the membership BFS never being consulted. -/
theorem C7_invalid_symbol_rejected (g : Grammar) (w : Str) (hw : w ≠ [])
    (hc : ∃ c ∈ w, c ∉ g.terminals) :
    belongs_to_grammar g w = (Except.ok false, g) := by
  unfold belongs_to_grammar
  rw [if_neg hw]
  have hall : (!w.all fun c => decide (c ∈ g.terminals)) = true := by
    obtain ⟨c, hcw, hct⟩ := hc
    simp only [Bool.not_eq_true', List.all_eq_false]
    exact ⟨c, hcw, by simpa using hct⟩
  rw [if_pos hall]

theorem C7_witness :
    belongs_to_grammar exampleGrammar ['z'] = (Except.ok false, exampleGrammar) :=
  C7_invalid_symbol_rejected exampleGrammar ['z'] (by decide)
    ⟨'z', by decide, by decide⟩

/-! ### The empty-string search cannot succeed without an epsilon production -/

theorem emptyLoop_no_true {g0 : Grammar} (hne : noEmptyRhs g0) :
    ∀ (fuel : Nat) (gc : Grammar) (q vis trace : List Str), GEquiv g0 gc →
    (∀ x ∈ q, x ≠ []) → (emptyLoop fuel gc q vis trace).result ≠ some true := by
  intro fuel
  induction fuel with
  | zero =>
    intro gc q vis trace _ _
    cases q with
    | nil => simp [emptyLoop]
    | cons c rest => simp [emptyLoop]
  | succ fuel ih =>
    intro gc q vis trace hGE hq
    cases q with
    | nil => simp [emptyLoop]
    | cons c rest =>
      simp only [emptyLoop]
      rw [if_neg (hq c (List.mem_cons_self _ _))]
      by_cases ht : is_terminal_string gc c
      · rw [if_pos ht]
        exact ih gc rest vis _ hGE (fun x hx => hq x (List.mem_cons_of_mem _ hx))
      · rw [if_neg ht]
        have hGE' : GEquiv g0 (get_expansions gc c).2 :=
          gequiv_trans hGE (get_expansions_prodExtend gc c).gequiv
        obtain ⟨new, hqv, hnew, _⟩ :=
          enqueueNew_spec (fun e => decide (e.length < 20)) (get_expansions gc c).1 rest vis
        rw [hqv]
        refine ih _ _ _ _ hGE' ?_
        intro x hx
        rcases List.mem_append.mp hx with hx | hx
        · exact hq x (List.mem_cons_of_mem _ hx)
        · have hx1 : x ∈ (get_expansions gc c).1 := (hnew x hx).2.2
          rw [get_expansions_fst, pureExpansions_congr hGE] at hx1
          exact lmStep_ne_nil hne hx1

theorem can_produce_empty_eq_some {g : Grammar} {s : Str} (h : g.start_symbol = some s) :
    can_produce_empty g =
      (match (emptyRunOf g s).result with
       | some b => (Except.ok b, (emptyRunOf g s).g)
       | none => (Except.ok false, (emptyRunOf g s).g)) := by
  unfold can_produce_empty
  rw [h]

theorem can_produce_empty_false_of_noEmptyRhs {g : Grammar} {s : Str} (hne : noEmptyRhs g)
    (hs : g.start_symbol = some s) (hsnil : s ≠ []) :
    (can_produce_empty g).1 = Except.ok false := by
  have hnotrue : (emptyRunOf g s).result ≠ some true :=
    emptyLoop_no_true hne (emptyFuel g) g [s] [s] []
      (gequiv_refl _) (fun x hx => by
        rw [List.mem_singleton.mp hx]
        exact hsnil)
  rw [can_produce_empty_eq_some hs]
  generalize hres : (emptyRunOf g s).result = r at hnotrue ⊢
  cases r with
  | none => rfl
  | some b =>
    cases b with
    | false => rfl
    | true => exact absurd rfl hnotrue

/-- C10: on the example grammar, `belongs_to_grammar("")` returns `false`: the
bounded empty-string reachability search can never dequeue the empty form
(every production of the example grammar has a nonempty right-hand side, so
every enqueued form is nonempty) and therefore exhausts its search. -/
theorem C10_belongs_empty_example_false :
    (belongs_to_grammar exampleGrammar []).1 = Except.ok false := by
  have h := @can_produce_empty_false_of_noEmptyRhs exampleGrammar ['S']
    (by unfold noEmptyRhs; decide) (by decide) (by decide)
  unfold belongs_to_grammar
  rw [if_pos rfl]
  exact h

/-! ### Everything the membership search visits is derivable -/

theorem genReach_rtg {g : Grammar} {s x : Str} (h : GenReach g s x) :
    Relation.ReflTransGen (lmStep g) s x := by
  induction h with
  | refl => exact Relation.ReflTransGen.refl
  | step _ _ hu ih => exact Relation.ReflTransGen.tail ih hu

theorem bfsLoop_found_reach {g0 : Grammar} {s : Str} (target : Str) :
    ∀ (fuel iters : Nat) (gc : Grammar) (q vis : List Str), GEquiv g0 gc →
    (∀ x ∈ q, x ∈ vis) → (∀ x ∈ vis, GenReach g0 s x) →
    (bfsLoop target fuel iters gc q vis).outcome = BfsOutcome.found →
    GenReach g0 s target := by
  intro fuel
  induction fuel with
  | zero =>
    intro iters gc q vis _ _ _ h
    cases q with
    | nil => simp [bfsLoop] at h
    | cons c rest => simp [bfsLoop] at h
  | succ fuel ih =>
    intro iters gc q vis hGE hq hvis h
    cases q with
    | nil => simp [bfsLoop] at h
    | cons c rest =>
      simp only [bfsLoop] at h
      by_cases hi : 10000 ≤ iters
      · rw [if_pos hi] at h
        simp at h
      · rw [if_neg hi] at h
        by_cases hc : c = target
        · subst hc
          exact hvis c (hq c (List.mem_cons_self _ _))
        · rw [if_neg hc] at h
          by_cases ht : is_terminal_string gc c
          · rw [if_pos ht] at h
            exact ih _ gc rest vis hGE (fun x hx => hq x (List.mem_cons_of_mem _ hx)) hvis h
          · rw [if_neg ht] at h
            by_cases hl : target.length < c.length
            · rw [if_pos hl] at h
              exact ih _ gc rest vis hGE (fun x hx => hq x (List.mem_cons_of_mem _ hx)) hvis h
            · rw [if_neg hl] at h
              have hGE' : GEquiv g0 (get_expansions gc c).2 :=
                gequiv_trans hGE (get_expansions_prodExtend gc c).gequiv
              obtain ⟨new, hqv, hnew, _⟩ :=
                enqueueNew_spec (fun _ => true) (get_expansions gc c).1 rest vis
              rw [hqv] at h
              have hterm : is_terminal_string g0 c = false := by
                rw [← is_terminal_string_congr hGE]
                exact Bool.not_eq_true _ ▸ (by simpa using ht)
              have hreach_c : GenReach g0 s c := hvis c (hq c (List.mem_cons_self _ _))
              refine ih _ _ _ _ hGE' ?_ ?_ h
              · intro x hx
                rcases List.mem_append.mp hx with hx | hx
                · exact List.mem_append.mpr (Or.inl (hq x (List.mem_cons_of_mem _ hx)))
                · exact List.mem_append.mpr (Or.inr hx)
              · intro x hx
                rcases List.mem_append.mp hx with hx | hx
                · exact hvis x hx
                · have hx1 : x ∈ (get_expansions gc c).1 := (hnew x hx).2.2
                  rw [get_expansions_fst, pureExpansions_congr hGE] at hx1
                  exact GenReach.step hreach_c hterm hx1

/-- C8: whenever `belongs_to_grammar` answers `true` on a nonempty word, the
word really is derivable from the start symbol by a finite sequence of
leftmost production applications — the BFS visits only derivable forms, so the
membership search has no false positives. -/
theorem C8_membership_no_false_positives (g : Grammar) (w : Str) (hw : w ≠ [])
    (h : (belongs_to_grammar g w).1 = Except.ok true) :
    ∃ s, g.start_symbol = some s ∧ Relation.ReflTransGen (lmStep g) s w := by
  unfold belongs_to_grammar at h
  rw [if_neg hw] at h
  by_cases hall : !w.all (fun c => decide (c ∈ g.terminals))
  · rw [if_pos hall] at h
    simp at h
  · rw [if_neg hall] at h
    cases hs : g.start_symbol with
    | none => simp [bfs_parse, hs] at h
    | some s =>
      refine ⟨s, rfl, ?_⟩
      simp only [bfs_parse, hs] at h
      by_cases hnil : s = []
      · rw [if_pos hnil] at h
        simp at h
      · rw [if_neg hnil] at h
        have hfound : (bfsRunOf g w s).outcome = BfsOutcome.found := by
          simp only [Except.ok.injEq, decide_eq_true_eq] at h
          exact h
        exact genReach_rtg (bfsLoop_found_reach w 10000 0 g [s] [s] (gequiv_refl g)
          (by intro x hx; exact hx) (by
            intro x hx
            rw [List.mem_singleton.mp hx]
            exact GenReach.refl s) hfound)

theorem C8_witness :
    Relation.ReflTransGen (lmStep exampleGrammar) ['S'] ['a', 'b'] := by
  obtain ⟨s, hs, hr⟩ :=
    C8_membership_no_false_positives exampleGrammar ['a', 'b'] (by decide) (by decide)
  have hs' : exampleGrammar.start_symbol = some ['S'] := by decide
  have heq : s = ['S'] := by
    rw [hs] at hs'
    exact Option.some.inj hs'
  rw [← heq]
  exact hr

/-! ### Invariants of the generation loop -/

theorem genLoop_invariant (g0 : Grammar) (L N : Nat) :
    ∀ (fuel : Nat) (gc : Grammar) (q vis words : List Str) (out : List Str × Grammar),
    GEquiv g0 gc → words.Nodup → words.length ≤ N →
    (∀ w ∈ words, is_terminal_string g0 w = true ∧ w.length ≤ L ∧ w ≠ []) →
    genLoop L N fuel gc q vis words = some out →
    out.1.Pairwise (fun a b => lexLt a b = true) ∧ out.1.length ≤ N ∧
      ∀ w ∈ out.1, is_terminal_string g0 w = true ∧ w.length ≤ L ∧ w ≠ [] := by
  intro fuel
  induction fuel with
  | zero =>
    intro gc q vis words out hGE hnd hlen hprops h
    cases q with
    | nil =>
      simp only [genLoop, Option.some.injEq] at h
      rw [← h]
      exact ⟨sortStrs_pairwise hnd, by rw [sortStrs_length]; exact hlen,
        fun w hw => hprops w (sortStrs_mem.mp hw)⟩
    | cons c rest =>
      simp only [genLoop] at h
      by_cases hN : N ≤ words.length
      · rw [if_pos hN] at h
        simp only [Option.some.injEq] at h
        rw [← h]
        exact ⟨sortStrs_pairwise hnd, by rw [sortStrs_length]; exact hlen,
          fun w hw => hprops w (sortStrs_mem.mp hw)⟩
      · rw [if_neg hN] at h
        simp at h
  | succ fuel ih =>
    intro gc q vis words out hGE hnd hlen hprops h
    cases q with
    | nil =>
      simp only [genLoop, Option.some.injEq] at h
      rw [← h]
      exact ⟨sortStrs_pairwise hnd, by rw [sortStrs_length]; exact hlen,
        fun w hw => hprops w (sortStrs_mem.mp hw)⟩
    | cons c rest =>
      simp only [genLoop] at h
      by_cases hN : N ≤ words.length
      · rw [if_pos hN] at h
        simp only [Option.some.injEq] at h
        rw [← h]
        exact ⟨sortStrs_pairwise hnd, by rw [sortStrs_length]; exact hlen,
          fun w hw => hprops w (sortStrs_mem.mp hw)⟩
      · rw [if_neg hN] at h
        by_cases ht : is_terminal_string gc c
        · rw [if_pos ht] at h
          by_cases hadd : c.length ≤ L && !c.isEmpty
          · rw [if_pos hadd] at h
            have hadd' : c.length ≤ L ∧ c ≠ [] := by
              simpa [List.isEmpty_iff] using hadd
            have hcL : c.length ≤ L := hadd'.1
            have hcne : c ≠ [] := hadd'.2
            have hct : is_terminal_string g0 c = true := by
              rw [← is_terminal_string_congr hGE]
              exact ht
            refine ih gc rest vis _ out hGE (insertSet_nodup hnd) ?_ ?_ h
            · calc (insertSet c words).length ≤ words.length + 1 :=
                insertSet_length_le c words
                _ ≤ N := by omega
            · intro w hw
              rcases insertSet_mem hw with rfl | hw
              · exact ⟨hct, hcL, hcne⟩
              · exact hprops w hw
          · rw [if_neg hadd] at h
            exact ih gc rest vis words out hGE hnd hlen hprops h
        · rw [if_neg ht] at h
          by_cases hl : L < c.length
          · rw [if_pos hl] at h
            exact ih gc rest vis words out hGE hnd hlen hprops h
          · rw [if_neg hl] at h
            have hGE' : GEquiv g0 (get_expansions gc c).2 :=
              gequiv_trans hGE (get_expansions_prodExtend gc c).gequiv
            exact ih _ _ _ words out hGE' hnd hlen hprops h

/-- C4: `generate_words` returns a lexicographically sorted, duplicate-free
list of at most `max_words` nonempty words, each of length at most
`max_length`, consisting only of terminal symbols.  (The strict pairwise
`lexLt` chain expresses sortedness and distinctness together.) -/
theorem C4_generate_words_properties (g : Grammar) (L N : Nat)
    (hL : 0 < L) (hN : 0 < N) :
    (generate_words g L N).1.Pairwise (fun a b => lexLt a b = true) ∧
    (generate_words g L N).1.length ≤ N ∧
    ∀ w ∈ (generate_words g L N).1,
      w ≠ [] ∧ w.length ≤ L ∧ ∀ c ∈ w, c ∈ g.terminals := by
  cases hs : g.start_symbol with
  | none =>
    simp only [generate_words, hs]
    exact ⟨List.Pairwise.nil, by simp, by simp⟩
  | some s =>
    simp only [generate_words, hs]
    by_cases hnil : s = []
    · rw [if_pos hnil]
      exact ⟨List.Pairwise.nil, by simp, by simp⟩
    · rw [if_neg hnil]
      cases hgl : genLoop L N (genFuel g L) g [s] [s] [] with
      | none =>
        simp only [hgl]
        exact ⟨List.Pairwise.nil, by simp, by simp⟩
      | some out =>
        simp only [hgl]
        obtain ⟨h1, h2, h3⟩ := genLoop_invariant g L N (genFuel g L) g [s] [s] [] out
          (gequiv_refl g) List.nodup_nil (by simp) (by simp) hgl
        refine ⟨h1, h2, ?_⟩
        intro w hw
        obtain ⟨ht, hlen, hne⟩ := h3 w hw
        exact ⟨hne, hlen, is_terminal_string_iff.mp ht⟩

theorem C4_witness :
    (generate_words exampleGrammar 2 50).1.Pairwise (fun a b => lexLt a b = true) ∧
    (generate_words exampleGrammar 2 50).1.length ≤ 50 ∧
    ∀ w ∈ (generate_words exampleGrammar 2 50).1,
      w ≠ [] ∧ w.length ≤ 2 ∧ ∀ c ∈ w, c ∈ exampleGrammar.terminals :=
  C4_generate_words_properties exampleGrammar 2 50 (by decide) (by decide)

/-! ### Every generated word is derivable -/

theorem genLoop_words_reach (g0 : Grammar) (L N : Nat) (s : Str) :
    ∀ (fuel : Nat) (gc : Grammar) (q vis words : List Str) (out : List Str × Grammar),
    GEquiv g0 gc → (∀ x ∈ q, x ∈ vis) → (∀ x ∈ vis, GenReach g0 s x) →
    (∀ w ∈ words, GenReach g0 s w) →
    genLoop L N fuel gc q vis words = some out →
    ∀ w ∈ out.1, GenReach g0 s w := by
  intro fuel
  induction fuel with
  | zero =>
    intro gc q vis words out hGE hq hvis hwords h
    cases q with
    | nil =>
      simp only [genLoop, Option.some.injEq] at h
      rw [← h]
      exact fun w hw => hwords w (sortStrs_mem.mp hw)
    | cons c rest =>
      simp only [genLoop] at h
      by_cases hN : N ≤ words.length
      · rw [if_pos hN] at h
        simp only [Option.some.injEq] at h
        rw [← h]
        exact fun w hw => hwords w (sortStrs_mem.mp hw)
      · rw [if_neg hN] at h
        simp at h
  | succ fuel ih =>
    intro gc q vis words out hGE hq hvis hwords h
    cases q with
    | nil =>
      simp only [genLoop, Option.some.injEq] at h
      rw [← h]
      exact fun w hw => hwords w (sortStrs_mem.mp hw)
    | cons c rest =>
      simp only [genLoop] at h
      by_cases hN : N ≤ words.length
      · rw [if_pos hN] at h
        simp only [Option.some.injEq] at h
        rw [← h]
        exact fun w hw => hwords w (sortStrs_mem.mp hw)
      · rw [if_neg hN] at h
        have hqrest : ∀ x ∈ rest, x ∈ vis := fun x hx => hq x (List.mem_cons_of_mem _ hx)
        by_cases ht : is_terminal_string gc c
        · rw [if_pos ht] at h
          by_cases hadd : c.length ≤ L && !c.isEmpty
          · rw [if_pos hadd] at h
            refine ih gc rest vis _ out hGE hqrest hvis ?_ h
            intro w hw
            rcases insertSet_mem hw with hwc | hw
            · rw [hwc]
              exact hvis c (hq c (List.mem_cons_self _ _))
            · exact hwords w hw
          · rw [if_neg hadd] at h
            exact ih gc rest vis words out hGE hqrest hvis hwords h
        · rw [if_neg ht] at h
          by_cases hl : L < c.length
          · rw [if_pos hl] at h
            exact ih gc rest vis words out hGE hqrest hvis hwords h
          · rw [if_neg hl] at h
            have hGE' : GEquiv g0 (get_expansions gc c).2 :=
              gequiv_trans hGE (get_expansions_prodExtend gc c).gequiv
            obtain ⟨new, hqv, hnew, _⟩ :=
              enqueueNew_spec (fun e => decide (e.length ≤ 2 * L)) (get_expansions gc c).1
                rest vis
            rw [hqv] at h
            have hterm : is_terminal_string g0 c = false := by
              rw [← is_terminal_string_congr hGE]
              exact Bool.not_eq_true _ ▸ (by simpa using ht)
            have hreach_c : GenReach g0 s c := hvis c (hq c (List.mem_cons_self _ _))
            refine ih _ _ _ words out hGE' ?_ ?_ hwords h
            · intro x hx
              rcases List.mem_append.mp hx with hx | hx
              · exact List.mem_append.mpr (Or.inl (hqrest x hx))
              · exact List.mem_append.mpr (Or.inr hx)
            · intro x hx
              rcases List.mem_append.mp hx with hx | hx
              · exact hvis x hx
              · have hx1 : x ∈ (get_expansions gc c).1 := (hnew x hx).2.2
                rw [get_expansions_fst, pureExpansions_congr hGE] at hx1
                exact GenReach.step hreach_c hterm hx1

/-- Soundness data for every generated word: the start symbol exists and is
nonempty, the word is reachable by expanded (non-terminal) forms, and it is a
nonempty terminal word within the length bound. -/
theorem generate_words_sound {g : Grammar} {L N : Nat} {w : Str}
    (hw : w ∈ (generate_words g L N).1) :
    ∃ s, g.start_symbol = some s ∧ s ≠ [] ∧ GenReach g s w ∧
      is_terminal_string g w = true ∧ w.length ≤ L ∧ w ≠ [] := by
  cases hs : g.start_symbol with
  | none => simp [generate_words, hs] at hw
  | some s =>
    simp only [generate_words, hs] at hw
    by_cases hnil : s = []
    · rw [if_pos hnil] at hw
      simp at hw
    · rw [if_neg hnil] at hw
      cases hgl : genLoop L N (genFuel g L) g [s] [s] [] with
      | none =>
        rw [hgl] at hw
        simp at hw
      | some out =>
        rw [hgl] at hw
        refine ⟨s, rfl, hnil, ?_, ?_⟩
        · refine genLoop_words_reach g L N s (genFuel g L) g [s] [s] [] out
            (gequiv_refl g) (fun x hx => hx) ?_ (by simp) hgl w hw
          intro x hx
          rw [List.mem_singleton.mp hx]
          exact GenReach.refl s
        · obtain ⟨_, _, h3⟩ := genLoop_invariant g L N (genFuel g L) g [s] [s] [] out
            (gequiv_refl g) List.nodup_nil (by simp) (by simp) hgl
          exact h3 w hw

/-! ### The balance argument on the example grammar -/

theorem strWeight_append (a b : Str) :
    strWeight (a ++ b) = strWeight a + strWeight b := by
  simp [strWeight]

theorem exampleGrammar_step_weight {x y : Str}
    (h : y ∈ pureExpansions exampleGrammar x) : strWeight y = strWeight x := by
  obtain ⟨p, c, suf, rhs, hx, _, hc, hrhs, hy⟩ := pureExpansions_mem h
  have hwrhs : strWeight rhs = charWeight c := by
    have hcval : c = 'S' ∨ c = 'B' ∨ c = 'A' := by
      rw [exampleGrammar_val] at hc
      simpa [exampleGrammarVal] using hc
    rcases hcval with hcv | hcv | hcv
    · rw [hcv] at hrhs ⊢
      have hl : lookupD exampleGrammar ['S'] = [['a', 'B'], ['b', 'A']] := by decide
      rw [hl] at hrhs
      simp only [List.mem_cons, List.not_mem_nil, or_false] at hrhs
      rcases hrhs with hr | hr
      · rw [hr]; decide
      · rw [hr]; decide
    · rw [hcv] at hrhs ⊢
      have hl : lookupD exampleGrammar ['B'] = [['b'], ['b', 'S'], ['a', 'B', 'B']] := by
        decide
      rw [hl] at hrhs
      simp only [List.mem_cons, List.not_mem_nil, or_false] at hrhs
      rcases hrhs with hr | hr | hr
      · rw [hr]; decide
      · rw [hr]; decide
      · rw [hr]; decide
    · rw [hcv] at hrhs ⊢
      have hl : lookupD exampleGrammar ['A'] = [['a'], ['a', 'S'], ['b', 'A', 'A']] := by
        decide
      rw [hl] at hrhs
      simp only [List.mem_cons, List.not_mem_nil, or_false] at hrhs
      rcases hrhs with hr | hr | hr
      · rw [hr]; decide
      · rw [hr]; decide
      · rw [hr]; decide
  rw [hx, hy]
  rw [strWeight_append, strWeight_append, strWeight_append, hwrhs]
  have hcsuf : strWeight (c :: suf) = charWeight c + strWeight suf := by
    simp [strWeight]
  rw [hcsuf]
  ring

theorem genReach_weight {s w : Str} (h : GenReach exampleGrammar s w) :
    strWeight w = strWeight s := by
  induction h with
  | refl => rfl
  | step _ _ hu ih => rw [exampleGrammar_step_weight hu, ih]

theorem strWeight_count {w : Str} (h : ∀ c ∈ w, c = 'a' ∨ c = 'b') :
    strWeight w = (w.count 'a' : Int) - (w.count 'b' : Int) := by
  induction w with
  | nil => simp [strWeight]
  | cons c cs ih =>
    have hc := h c (List.mem_cons_self _ _)
    have ih' := ih (fun d hd => h d (List.mem_cons_of_mem _ hd))
    have hhead : strWeight (c :: cs) = charWeight c + strWeight cs := by
      simp [strWeight]
    rcases hc with hcv | hcv
    · rw [hcv] at hhead ⊢
      rw [hhead, ih']
      simp [charWeight, List.count_cons]
      ring
    · rw [hcv] at hhead ⊢
      rw [hhead, ih']
      simp [charWeight, List.count_cons]
      ring

/-- C9: every word `generate_words` returns for the example grammar has as many
`a` characters as `b` characters: the character weight (`a`, `A` count `1`;
`b`, `B` count `-1`) is invariant under every production of the example
grammar, is `0` on the start form `S`, and on an all-terminal word equals the
count difference. -/
theorem C9_equal_counts (L N : Nat) (hL : 0 < L) (hN : 0 < N) (w : Str)
    (hw : w ∈ (generate_words exampleGrammar L N).1) :
    w.count 'a' = w.count 'b' := by
  obtain ⟨s, hs, _, hreach, hterm, _, _⟩ := generate_words_sound hw
  have hs2 : exampleGrammar.start_symbol = some ['S'] := by decide
  rw [hs2] at hs
  have hseq : s = ['S'] := Option.some.inj hs.symm
  rw [hseq] at hreach
  have hw0 : strWeight w = strWeight ['S'] := genReach_weight hreach
  have hS : strWeight ['S'] = 0 := by decide
  have hchars : ∀ c ∈ w, c = 'a' ∨ c = 'b' := by
    intro c hcw
    have := is_terminal_string_iff.mp hterm c hcw
    have hT : exampleGrammar.terminals = ['a', 'b'] := by decide
    rw [hT] at this
    simpa using this
  have hcount := strWeight_count hchars
  rw [hw0, hS] at hcount
  omega

theorem C9_witness : List.count 'a' ['a', 'b'] = List.count 'b' ['a', 'b'] :=
  C9_equal_counts 2 50 (by decide) (by decide) ['a', 'b'] (by decide)

/-! ### Finiteness of the bounded search space -/

theorem listsUpTo_mem {A : Finset Char} : ∀ (n : Nat) (l : Str),
    l ∈ listsUpTo A n ↔ l.length ≤ n ∧ ∀ c ∈ l, c ∈ A := by
  intro n
  induction n with
  | zero =>
    intro l
    simp only [listsUpTo, Finset.mem_singleton]
    constructor
    · intro h
      rw [h]
      simp
    · intro h
      exact List.length_eq_zero.mp (Nat.le_zero.mp h.1)
  | succ n ih =>
    intro l
    simp only [listsUpTo, Finset.mem_insert, Finset.mem_image, Finset.mem_product]
    constructor
    · intro h
      rcases h with h | ⟨⟨c, t⟩, ⟨hcA, htS⟩, heq⟩
      · rw [h]
        simp
      · rw [← heq]
        obtain ⟨h1, h2⟩ := (ih t).mp htS
        refine ⟨by simp only [List.length_cons]; omega, ?_⟩
        intro d hd
        rcases List.mem_cons.mp hd with hdc | hd
        · rw [hdc]
          exact hcA
        · exact h2 d hd
    · intro h
      obtain ⟨h1, h2⟩ := h
      cases l with
      | nil => exact Or.inl rfl
      | cons c t =>
        right
        refine ⟨(c, t), ⟨h2 c (List.mem_cons_self _ _), (ih t).mpr ⟨?_, ?_⟩⟩, rfl⟩
        · simp only [List.length_cons] at h1
          omega
        · intro d hd
          exact h2 d (List.mem_cons_of_mem _ hd)

theorem listsUpTo_card_le (A : Finset Char) : ∀ n, (listsUpTo A n).card ≤ powSum A.card n := by
  intro n
  induction n with
  | zero => simp [listsUpTo, powSum]
  | succ n ih =>
    calc (listsUpTo A (n + 1)).card
        ≤ ((A ×ˢ listsUpTo A n).image (fun p => p.1 :: p.2)).card + 1 := by
          simpa [listsUpTo] using Finset.card_insert_le ([] : Str)
            ((A ×ˢ listsUpTo A n).image (fun p => p.1 :: p.2))
      _ ≤ (A ×ˢ listsUpTo A n).card + 1 := Nat.add_le_add_right Finset.card_image_le 1
      _ = A.card * (listsUpTo A n).card + 1 := by rw [Finset.card_product]
      _ ≤ A.card * powSum A.card n + 1 :=
          Nat.add_le_add_right (Nat.mul_le_mul_left _ ih) 1
      _ = powSum A.card (n + 1) := by
          simp [powSum]
          ring

theorem nodup_length_le_card {l : List Str} {F : Finset Str} (hnd : l.Nodup)
    (hsub : ∀ x ∈ l, x ∈ F) : l.length ≤ F.card := by
  rw [← List.toFinset_card_of_nodup hnd]
  exact Finset.card_le_card (fun x hx => hsub x (List.mem_toFinset.mp hx))

theorem start_chars_in_alpha {g : Grammar} {s : Str} (hs : g.start_symbol = some s)
    {c : Char} (hc : c ∈ s) : c ∈ alpha g := by
  unfold alpha alphaList
  rw [hs]
  rw [List.mem_toFinset]
  exact List.mem_append.mpr (Or.inl hc)

theorem rhs_chars_in_alpha {g : Grammar} {kv : Str × List Str} (hkv : kv ∈ g.productions)
    {r : Str} (hr : r ∈ kv.2) {c : Char} (hc : c ∈ r) : c ∈ alpha g := by
  unfold alpha alphaList
  rw [List.mem_toFinset]
  refine List.mem_append.mpr (Or.inr ?_)
  rw [List.mem_flatten]
  refine ⟨r, ?_, hc⟩
  rw [List.mem_flatten]
  exact ⟨kv.2, List.mem_map.mpr ⟨kv, hkv, rfl⟩, hr⟩

theorem expansion_chars_in_alpha {g : Grammar} {x y : Str}
    (hx : ∀ c ∈ x, c ∈ alpha g) (h : y ∈ pureExpansions g x) :
    ∀ c ∈ y, c ∈ alpha g := by
  intro c hc
  rcases pureExpansions_chars h hc with h1 | ⟨kv, hkv, r, hr, hcr⟩
  · exact hx c h1
  · exact rhs_chars_in_alpha hkv hr hcr

/-! ### Termination of the bounded searches -/

theorem bfsLoop_iters_le (target : Str) :
    ∀ (fuel iters : Nat) (g : Grammar) (q vis : List Str),
    (bfsLoop target fuel iters g q vis).iters ≤ iters + fuel := by
  intro fuel
  induction fuel with
  | zero =>
    intro iters g q vis
    cases q with
    | nil => simp [bfsLoop]
    | cons c rest => simp [bfsLoop]
  | succ fuel ih =>
    intro iters g q vis
    cases q with
    | nil => simp [bfsLoop]
    | cons c rest =>
      simp only [bfsLoop]
      by_cases hi : 10000 ≤ iters
      · rw [if_pos hi]
        show iters ≤ iters + (fuel + 1)
        omega
      · rw [if_neg hi]
        by_cases hc : c = target
        · rw [if_pos hc]
          show iters + 1 ≤ iters + (fuel + 1)
          omega
        · rw [if_neg hc]
          by_cases ht : is_terminal_string g c
          · rw [if_pos ht]
            calc (bfsLoop target fuel (iters + 1) g rest vis).iters
                ≤ (iters + 1) + fuel := ih (iters + 1) g rest vis
              _ = iters + (fuel + 1) := by omega
          · rw [if_neg ht]
            by_cases hl : target.length < c.length
            · rw [if_pos hl]
              calc (bfsLoop target fuel (iters + 1) g rest vis).iters
                  ≤ (iters + 1) + fuel := ih (iters + 1) g rest vis
                _ = iters + (fuel + 1) := by omega
            · rw [if_neg hl]
              calc (bfsLoop target fuel (iters + 1) (get_expansions g c).2 _ _).iters
                  ≤ (iters + 1) + fuel := ih (iters + 1) _ _ _
                _ = iters + (fuel + 1) := by omega

theorem emptyLoop_popped_bound (s0 : Str) :
    ∀ (fuel : Nat) (g : Grammar) (q vis trace : List Str),
    (∀ x ∈ q, x = s0 ∨ x.length < 20) →
    (∀ x ∈ trace, x = s0 ∨ x.length < 20) →
    ∀ x ∈ (emptyLoop fuel g q vis trace).popped, x = s0 ∨ x.length < 20 := by
  intro fuel
  induction fuel with
  | zero =>
    intro g q vis trace hq htr
    cases q with
    | nil => exact htr
    | cons c rest => exact htr
  | succ fuel ih =>
    intro g q vis trace hq htr
    cases q with
    | nil => exact htr
    | cons c rest =>
      have hc := hq c (List.mem_cons_self _ _)
      have htr' : ∀ x ∈ trace ++ [c], x = s0 ∨ x.length < 20 := by
        intro x hx
        rcases List.mem_append.mp hx with hx | hx
        · exact htr x hx
        · rw [List.mem_singleton.mp hx]
          exact hc
      have hqrest : ∀ x ∈ rest, x = s0 ∨ x.length < 20 :=
        fun x hx => hq x (List.mem_cons_of_mem _ hx)
      simp only [emptyLoop]
      by_cases hnil : c = []
      · rw [if_pos hnil]
        exact htr'
      · rw [if_neg hnil]
        by_cases ht : is_terminal_string g c
        · rw [if_pos ht]
          exact ih g rest vis _ hqrest htr'
        · rw [if_neg ht]
          obtain ⟨new, hqv, hnew, _⟩ :=
            enqueueNew_spec (fun e => decide (e.length < 20)) (get_expansions g c).1 rest vis
          rw [hqv]
          refine ih _ _ _ _ ?_ htr'
          intro x hx
          rcases List.mem_append.mp hx with hx | hx
          · exact hqrest x hx
          · right
            have := (hnew x hx).2.1
            simpa using this

theorem emptyLoop_result_isSome {g0 : Grammar} {s : Str} (hsA : ∀ c ∈ s, c ∈ alpha g0) :
    ∀ (fuel : Nat) (gc : Grammar) (q vis trace : List Str),
    GEquiv g0 gc → vis.Nodup → (∀ x ∈ q, x ∈ vis) →
    (∀ x ∈ vis, x ∈ insert s (listsUpTo (alpha g0) 19)) →
    q.length + ((insert s (listsUpTo (alpha g0) 19)).card - vis.length) ≤ fuel →
    (emptyLoop fuel gc q vis trace).result.isSome := by
  intro fuel
  induction fuel with
  | zero =>
    intro gc q vis trace _ _ _ _ hfuel
    cases q with
    | nil => simp [emptyLoop]
    | cons c rest =>
      simp only [List.length_cons] at hfuel
      omega
  | succ fuel ih =>
    intro gc q vis trace hGE hnd hq hvis hfuel
    cases q with
    | nil => simp [emptyLoop]
    | cons c rest =>
      simp only [emptyLoop]
      by_cases hnil : c = []
      · rw [if_pos hnil]
        simp
      · rw [if_neg hnil]
        by_cases ht : is_terminal_string gc c
        · rw [if_pos ht]
          refine ih gc rest vis _ hGE hnd (fun x hx => hq x (List.mem_cons_of_mem _ hx))
            hvis ?_
          simp only [List.length_cons] at hfuel
          omega
        · rw [if_neg ht]
          obtain ⟨new, hqv, hnew, hnd'⟩ :=
            enqueueNew_spec (fun e => decide (e.length < 20)) (get_expansions gc c).1 rest vis
          rw [hqv]
          have hGE' : GEquiv g0 (get_expansions gc c).2 :=
            gequiv_trans hGE (get_expansions_prodExtend gc c).gequiv
          have hcchars : ∀ d ∈ c, d ∈ alpha g0 := by
            have hcU := hvis c (hq c (List.mem_cons_self _ _))
            rcases Finset.mem_insert.mp hcU with hcs | hcl
            · rw [hcs]
              exact hsA
            · exact ((listsUpTo_mem 19 c).mp hcl).2
          have hnewU : ∀ x ∈ new, x ∈ insert s (listsUpTo (alpha g0) 19) := by
            intro x hx
            obtain ⟨hxvis, hxg, hxi⟩ := hnew x hx
            rw [get_expansions_fst, pureExpansions_congr hGE] at hxi
            refine Finset.mem_insert.mpr (Or.inr ((listsUpTo_mem 19 x).mpr ⟨?_, ?_⟩))
            · have : x.length < 20 := by simpa using hxg
              omega
            · exact expansion_chars_in_alpha hcchars hxi
          have hvis' : ∀ x ∈ vis ++ new, x ∈ insert s (listsUpTo (alpha g0) 19) := by
            intro x hx
            rcases List.mem_append.mp hx with hx | hx
            · exact hvis x hx
            · exact hnewU x hx
          have hcard : (vis ++ new).length ≤ (insert s (listsUpTo (alpha g0) 19)).card :=
            nodup_length_le_card (hnd' hnd) hvis'
          refine ih _ _ _ _ hGE' (hnd' hnd) ?_ hvis' ?_
          · intro x hx
            rcases List.mem_append.mp hx with hx | hx
            · exact List.mem_append.mpr (Or.inl (hq x (List.mem_cons_of_mem _ hx)))
            · exact List.mem_append.mpr (Or.inr hx)
          · simp only [List.length_cons] at hfuel
            simp only [List.length_append] at hcard ⊢
            omega

theorem emptyRunOf_isSome {g : Grammar} {s : Str} (hs : g.start_symbol = some s) :
    (emptyRunOf g s).result.isSome := by
  have hsA : ∀ c ∈ s, c ∈ alpha g := fun c hc => start_chars_in_alpha hs hc
  refine emptyLoop_result_isSome hsA (emptyFuel g) g [s] [s] [] (gequiv_refl g)
    (List.nodup_singleton s) (fun x hx => hx) ?_ ?_
  · intro x hx
    rw [List.mem_singleton.mp hx]
    exact Finset.mem_insert_self s _
  · have h1 : (insert s (listsUpTo (alpha g) 19)).card ≤ 1 + powSum (alpha g).card 19 := by
      calc (insert s (listsUpTo (alpha g) 19)).card
          ≤ (listsUpTo (alpha g) 19).card + 1 := Finset.card_insert_le s _
        _ ≤ powSum (alpha g).card 19 + 1 :=
            Nat.add_le_add_right (listsUpTo_card_le (alpha g) 19) 1
        _ = 1 + powSum (alpha g).card 19 := by omega
    simp only [List.length_singleton]
    unfold emptyFuel
    omega

/-- C6 counterexample: on the grammar `ABCDEFGHIJKLMNOPQRSTUVWXYZ -> a` the
start symbol is a 26-character string, and the empty-string reachability BFS —
the search `belongs_to_grammar("")` runs — pops (explores) that string, a
sentential form of length greater than 20. -/
theorem C6_counterexample :
    longStartGrammar.start_symbol = some ("ABCDEFGHIJKLMNOPQRSTUVWXYZ").data ∧
    (emptyRunOf longStartGrammar ("ABCDEFGHIJKLMNOPQRSTUVWXYZ").data).popped.any
      (fun x => decide (20 < x.length)) = true ∧
    (belongs_to_grammar longStartGrammar []).1 = Except.ok false := by decide

/-- C6 (amended): every search is bounded — the membership BFS's iteration
counter never exceeds the 10,000-step cap, and the empty-string reachability
BFS explores, beyond the initial start-symbol form, only strings of length
below 20, and always ends with an answer (its queue empties within the finite
space of such strings, here witnessed by a computed fuel bound). -/
theorem C6_bounded_termination (g : Grammar) (w s : Str)
    (hs : g.start_symbol = some s) :
    (bfsRunOf g w s).iters ≤ 10000 ∧
    (∀ x ∈ (emptyRunOf g s).popped, x = s ∨ x.length < 20) ∧
    (emptyRunOf g s).result.isSome := by
  refine ⟨?_, ?_, emptyRunOf_isSome hs⟩
  · have h := bfsLoop_iters_le w 10000 0 g [s] [s]
    simpa using h
  · refine emptyLoop_popped_bound s (emptyFuel g) g [s] [s] [] ?_ (by simp)
    intro x hx
    exact Or.inl (List.mem_singleton.mp hx)

theorem C6_witness :
    (bfsRunOf exampleGrammar ['a'] ['S']).iters ≤ 10000 ∧
    (∀ x ∈ (emptyRunOf exampleGrammar ['S']).popped, x = ['S'] ∨ x.length < 20) ∧
    (emptyRunOf exampleGrammar ['S']).result.isSome :=
  C6_bounded_termination exampleGrammar ['a'] ['S'] (by decide)

/-! ### Closure of an exhausted membership search -/

theorem bfsLoop_vis_mono (target : Str) :
    ∀ (fuel iters : Nat) (gc : Grammar) (q vis : List Str),
    ∀ x ∈ vis, x ∈ (bfsLoop target fuel iters gc q vis).vis := by
  intro fuel
  induction fuel with
  | zero =>
    intro iters gc q vis x hx
    cases q with
    | nil => exact hx
    | cons c rest => exact hx
  | succ fuel ih =>
    intro iters gc q vis x hx
    cases q with
    | nil => exact hx
    | cons c rest =>
      simp only [bfsLoop]
      by_cases hi : 10000 ≤ iters
      · rw [if_pos hi]
        exact hx
      · rw [if_neg hi]
        by_cases hc : c = target
        · rw [if_pos hc]
          exact hx
        · rw [if_neg hc]
          by_cases ht : is_terminal_string gc c
          · rw [if_pos ht]
            exact ih _ gc rest vis x hx
          · rw [if_neg ht]
            by_cases hl : target.length < c.length
            · rw [if_pos hl]
              exact ih _ gc rest vis x hx
            · rw [if_neg hl]
              exact ih _ _ _ _ x (enqueueNew_vis_subset _ _ rest vis x hx)

theorem bfsLoop_emptied_closed {g0 : Grammar} (target : Str) :
    ∀ (fuel iters : Nat) (gc : Grammar) (q vis : List Str),
    GEquiv g0 gc →
    (bfsLoop target fuel iters gc q vis).outcome = BfsOutcome.emptied →
    ∀ x ∈ (bfsLoop target fuel iters gc q vis).vis,
      (x ∈ vis ∧ x ∉ q) ∨ BfsClosed g0 target (bfsLoop target fuel iters gc q vis).vis x := by
  intro fuel
  induction fuel with
  | zero =>
    intro iters gc q vis _ hout x hx
    cases q with
    | nil =>
      left
      exact ⟨hx, by simp⟩
    | cons c rest => simp [bfsLoop] at hout
  | succ fuel ih =>
    intro iters gc q vis hGE hout x hx
    cases q with
    | nil =>
      left
      exact ⟨hx, by simp⟩
    | cons c rest =>
      simp only [bfsLoop] at hout hx ⊢
      by_cases hi : 10000 ≤ iters
      · rw [if_pos hi] at hout
        simp at hout
      · rw [if_neg hi] at hout hx ⊢
        by_cases hc : c = target
        · rw [if_pos hc] at hout
          simp at hout
        · rw [if_neg hc] at hout hx ⊢
          by_cases ht : is_terminal_string gc c
          · rw [if_pos ht] at hout hx ⊢
            rcases ih _ gc rest vis hGE hout x hx with ⟨hxv, hxr⟩ | hcl
            · by_cases hxc : x = c
              · right
                constructor
                · rw [hxc]
                  exact hc
                · intro hf
                  have htg0 : is_terminal_string g0 x = true := by
                    rw [hxc, ← is_terminal_string_congr hGE]
                    exact ht
                  rw [htg0] at hf
                  exact absurd hf (by simp)
              · left
                refine ⟨hxv, ?_⟩
                intro hmem
                rcases List.mem_cons.mp hmem with h1 | h1
                · exact hxc h1
                · exact hxr h1
            · right
              exact hcl
          · rw [if_neg ht] at hout hx ⊢
            by_cases hl : target.length < c.length
            · rw [if_pos hl] at hout hx ⊢
              rcases ih _ gc rest vis hGE hout x hx with ⟨hxv, hxr⟩ | hcl
              · by_cases hxc : x = c
                · right
                  constructor
                  · rw [hxc]
                    exact hc
                  · intro _ hlen
                    rw [hxc] at hlen
                    omega
                · left
                  refine ⟨hxv, ?_⟩
                  intro hmem
                  rcases List.mem_cons.mp hmem with h1 | h1
                  · exact hxc h1
                  · exact hxr h1
              · right
                exact hcl
            · rw [if_neg hl] at hout hx ⊢
              have hGE' : GEquiv g0 (get_expansions gc c).2 :=
                gequiv_trans hGE (get_expansions_prodExtend gc c).gequiv
              obtain ⟨new, hqv, hnew, _⟩ :=
                enqueueNew_spec (fun _ => true) (get_expansions gc c).1 rest vis
              rw [hqv] at hout hx ⊢
              rcases ih _ _ _ _ hGE' hout x hx with ⟨hxv, hxq⟩ | hcl
              · have hxvis : x ∈ vis := by
                  rcases List.mem_append.mp hxv with h1 | h1
                  · exact h1
                  · exact absurd (List.mem_append.mpr (Or.inr h1)) hxq
                have hxrest : x ∉ rest := fun h1 => hxq (List.mem_append.mpr (Or.inl h1))
                by_cases hxc : x = c
                · right
                  constructor
                  · rw [hxc]
                    exact hc
                  · intro _ _ y hy
                    have hy' : y ∈ (get_expansions gc c).1 := by
                      rw [get_expansions_fst, pureExpansions_congr hGE, ← hxc]
                      exact hy
                    have hyvis : y ∈ (enqueueNew (fun _ => true) (get_expansions gc c).1
                        rest vis).2 :=
                      enqueueNew_mem_snd _ _ rest vis (fun _ _ => rfl) y hy'
                    rw [hqv] at hyvis
                    exact bfsLoop_vis_mono target fuel (iters + 1) _ _ _ y hyvis
                · left
                  refine ⟨hxvis, ?_⟩
                  intro hmem
                  rcases List.mem_cons.mp hmem with h1 | h1
                  · exact hxc h1
                  · exact hxrest h1
              · right
                exact hcl

/-! ### Claim C1: soundness of the generator relative to the membership search -/

theorem genReach_mem_of_closed {g : Grammar} {s w : Str} (hne : noEmptyRhs g)
    {V : List Str} (hsV : s ∈ V) (hclosed : ∀ x ∈ V, BfsClosed g w V x) :
    ∀ x, GenReach g s x → x.length ≤ w.length → x ∈ V := by
  intro x hx
  induction hx with
  | refl => exact fun _ => hsV
  | step h1 h2 h3 ih =>
    intro hulen
    have htlen := le_trans (lmStep_length_le hne h3) hulen
    exact (hclosed _ (ih htlen)).2 h2 htlen _ h3

/-- C1 counterexample: for the grammar `S -> aAb`, `A -> ` (an empty
right-hand side), generation with `max_length = 3, max_words = 10` returns the
word `ab`, yet the membership search rejects `ab`: its length pruning discards
the intermediate form `aAb` (length 3 > 2), which the derivation of `ab`
must pass through. -/
theorem C1_counterexample :
    (generate_words epsilonGrammar 3 10).1 = [['a', 'b']] ∧
    (belongs_to_grammar epsilonGrammar ['a', 'b']).1 = Except.ok false := by decide

/-- C1 (amended): for a grammar none of whose stored productions has an empty
right-hand side, every word returned by `generate_words` is accepted by
`belongs_to_grammar`, provided the membership BFS does not stop at its
10,000-iteration cap on that word.  (With an empty right-hand side the length
pruning of `_bfs_parse` can discard a needed longer intermediate form — the
counterexample above — and the iteration cap can cut the search short on large
grammars; the spec itself flags both bounds as sources of false negatives.) -/
theorem C1_generator_sound (g : Grammar) (L N : Nat) (w : Str)
    (hne : noEmptyRhs g) (hw : w ∈ (generate_words g L N).1)
    (hcap : ∀ s, g.start_symbol = some s →
      (bfsRunOf g w s).outcome ≠ BfsOutcome.capped) :
    (belongs_to_grammar g w).1 = Except.ok true := by
  obtain ⟨s, hs, hsnil, hreach, hterm, hlenL, hwne⟩ := generate_words_sound hw
  unfold belongs_to_grammar
  rw [if_neg hwne]
  have hall : (!w.all fun c => decide (c ∈ g.terminals)) = false := by
    unfold is_terminal_string at hterm
    rw [hterm]
    rfl
  rw [if_neg (by simp [hall])]
  simp only [bfs_parse, hs]
  rw [if_neg hsnil]
  simp only [Except.ok.injEq, decide_eq_true_eq]
  cases hout : (bfsRunOf g w s).outcome with
  | found => rfl
  | capped => exact absurd hout (hcap s hs)
  | emptied =>
    exfalso
    have hclosed0 := bfsLoop_emptied_closed w 10000 0 g [s] [s] (gequiv_refl g) hout
    have hclosed : ∀ x ∈ (bfsRunOf g w s).vis, BfsClosed g w (bfsRunOf g w s).vis x := by
      intro x hx
      rcases hclosed0 x hx with ⟨h1, h2⟩ | hcl
      · exact absurd h1 h2
      · exact hcl
    have hsV : s ∈ (bfsRunOf g w s).vis :=
      bfsLoop_vis_mono w 10000 0 g [s] [s] s (List.mem_singleton.mpr rfl)
    have hwV : w ∈ (bfsRunOf g w s).vis :=
      genReach_mem_of_closed hne hsV hclosed w hreach (le_refl _)
    exact (hclosed w hwV).1 rfl

theorem C1_witness :
    (belongs_to_grammar exampleGrammar ['a', 'b']).1 = Except.ok true := by
  refine C1_generator_sound exampleGrammar 2 50 ['a', 'b']
    (by unfold noEmptyRhs; decide) (by decide) ?_
  intro s hs
  have hs2 : exampleGrammar.start_symbol = some ['S'] := by decide
  rw [hs2] at hs
  rw [← Option.some.inj hs]
  decide

/-! ### The generation loop's computed fuel always suffices -/

theorem genLoop_ne_none {g0 : Grammar} {s : Str} (L N : Nat)
    (hsA : ∀ c ∈ s, c ∈ alpha g0) :
    ∀ (fuel : Nat) (gc : Grammar) (q vis words : List Str),
    GEquiv g0 gc → vis.Nodup → (∀ x ∈ q, x ∈ vis) →
    (∀ x ∈ vis, x ∈ insert s (listsUpTo (alpha g0) (2 * L))) →
    q.length + ((insert s (listsUpTo (alpha g0) (2 * L))).card - vis.length) ≤ fuel →
    genLoop L N fuel gc q vis words ≠ none := by
  intro fuel
  induction fuel with
  | zero =>
    intro gc q vis words _ _ _ _ hfuel
    cases q with
    | nil => simp [genLoop]
    | cons c rest =>
      simp only [List.length_cons] at hfuel
      omega
  | succ fuel ih =>
    intro gc q vis words hGE hnd hq hvis hfuel
    cases q with
    | nil => simp [genLoop]
    | cons c rest =>
      simp only [genLoop]
      by_cases hN : N ≤ words.length
      · rw [if_pos hN]
        simp
      · rw [if_neg hN]
        by_cases ht : is_terminal_string gc c
        · rw [if_pos ht]
          refine ih gc rest vis _ hGE hnd (fun x hx => hq x (List.mem_cons_of_mem _ hx))
            hvis ?_
          simp only [List.length_cons] at hfuel
          omega
        · rw [if_neg ht]
          by_cases hl : L < c.length
          · rw [if_pos hl]
            refine ih gc rest vis words hGE hnd (fun x hx => hq x (List.mem_cons_of_mem _ hx))
              hvis ?_
            simp only [List.length_cons] at hfuel
            omega
          · rw [if_neg hl]
            obtain ⟨new, hqv, hnew, hnd'⟩ :=
              enqueueNew_spec (fun e => decide (e.length ≤ 2 * L)) (get_expansions gc c).1
                rest vis
            rw [hqv]
            have hGE' : GEquiv g0 (get_expansions gc c).2 :=
              gequiv_trans hGE (get_expansions_prodExtend gc c).gequiv
            have hcchars : ∀ d ∈ c, d ∈ alpha g0 := by
              have hcU := hvis c (hq c (List.mem_cons_self _ _))
              rcases Finset.mem_insert.mp hcU with hcs | hcl
              · rw [hcs]
                exact hsA
              · exact ((listsUpTo_mem (2 * L) c).mp hcl).2
            have hvis' : ∀ x ∈ vis ++ new, x ∈ insert s (listsUpTo (alpha g0) (2 * L)) := by
              intro x hx
              rcases List.mem_append.mp hx with hx | hx
              · exact hvis x hx
              · obtain ⟨hxvis, hxg, hxi⟩ := hnew x hx
                rw [get_expansions_fst, pureExpansions_congr hGE] at hxi
                refine Finset.mem_insert.mpr (Or.inr ((listsUpTo_mem (2 * L) x).mpr
                  ⟨by simpa using hxg, expansion_chars_in_alpha hcchars hxi⟩))
            have hcard : (vis ++ new).length ≤ (insert s (listsUpTo (alpha g0) (2 * L))).card :=
              nodup_length_le_card (hnd' hnd) hvis'
            refine ih _ _ _ words hGE' (hnd' hnd) ?_ hvis' ?_
            · intro x hx
              rcases List.mem_append.mp hx with hx | hx
              · exact List.mem_append.mpr (Or.inl (hq x (List.mem_cons_of_mem _ hx)))
              · exact List.mem_append.mpr (Or.inr hx)
            · simp only [List.length_cons] at hfuel
              simp only [List.length_append] at hcard ⊢
              omega

/-- The fallback branch of `generate_words` is dead: with the computed fuel
`genFuel g L`, the loop always ends by emptying its queue or filling its word
budget, exactly as the source's unbounded `while` loop does. -/
theorem generate_words_fuel_sufficient {g : Grammar} {s : Str}
    (hs : g.start_symbol = some s) (L N : Nat) :
    genLoop L N (genFuel g L) g [s] [s] [] ≠ none := by
  have hsA : ∀ c ∈ s, c ∈ alpha g := fun c hc => start_chars_in_alpha hs hc
  refine genLoop_ne_none L N hsA (genFuel g L) g [s] [s] [] (gequiv_refl g)
    (List.nodup_singleton s) (fun x hx => hx) ?_ ?_
  · intro x hx
    rw [List.mem_singleton.mp hx]
    exact Finset.mem_insert_self s _
  · have h1 : (insert s (listsUpTo (alpha g) (2 * L))).card ≤
        1 + powSum (alpha g).card (2 * L) := by
      calc (insert s (listsUpTo (alpha g) (2 * L))).card
          ≤ (listsUpTo (alpha g) (2 * L)).card + 1 := Finset.card_insert_le s _
        _ ≤ powSum (alpha g).card (2 * L) + 1 :=
            Nat.add_le_add_right (listsUpTo_card_le (alpha g) (2 * L)) 1
        _ = 1 + powSum (alpha g).card (2 * L) := by omega
    simp only [List.length_singleton]
    unfold genFuel
    omega
